import Mathlib

set_option maxRecDepth 8192

namespace Mata

/-! Shallow embedding of the mata AFA core (src/src/afa/afa.cc) and the NFA
product construction (src/unnamed/part_000, nfa-intersection.cc).

States and symbols are non-negative integers.  A `Node` (an `OrdVec<State>`
in the source, i.e. a sorted duplicate-free vector) is modelled as a
`Finset Nat`; a `Nodes` value (`OrdVec<Node>`) is modelled as a `List` of
nodes in stored order.  The closed-set primitive lives in
`mata/closed_set.hh`, which is not part of the given sources; it is
modelled from the specification (spec §4.6). -/

/-- Symbols are non-negative integers. -/
abbrev Symbol := Nat

/-- Node: a set of states, semantically a conjunctive AFA configuration.
The source stores it as a sorted duplicate-free vector (`OrdVec<State>`). -/
abbrev Node := Finset Nat

/-- Nodes: a vector of nodes (disjunctive), in stored order. -/
abbrev Nodes := List Node

/-- Transition (src, symb, dst) of the AFA (struct `Trans` in afa.hh). -/
structure Trans where
  src : Nat
  symb : Nat
  dst : Nodes
deriving DecidableEq

/-- Inverse result: a pair (result_nodes, sharing_list).  If the current
configuration contains `sharing_list`, every state of `result_nodes` is a
predecessor under the bucket's symbol. -/
structure InverseResults where
  result_nodes : Finset Nat
  sharing_list : Node
deriving DecidableEq

/-- Bucket of the inverse transition relation: a symbol together with its
vector of inverse results. -/
structure InverseTrans where
  symb : Nat
  inverseResults : List InverseResults
deriving DecidableEq

/-- The AFA: forward relation (per state, a vector of transitions), inverse
relation (per state, a vector of symbol buckets), and the initial/final
state sets.  The state count is `transRelation.length`. -/
structure Afa where
  transRelation : List (List Trans)
  inverseTransRelation : List (List InverseTrans)
  initialstates : Finset Nat
  finalstates : Finset Nat
deriving DecidableEq

/-- Direction tag of a closed set (enum in mata/closed_set.hh). -/
inductive ClosedSetType where
  | upward_closed_set
  | downward_closed_set
deriving DecidableEq

/-- Modelled from the spec: the closed set with antichain storage of
mata/closed_set.hh (not under src/), spec §4.6: a tuple
(direction, minimum, maximum, antichain).  The bounds are carried but not
consulted by the operations. -/
structure StateClosedSet where
  type : ClosedSetType
  min : Nat
  max : Nat
  antichain : Nodes
deriving DecidableEq

/-- Domination order of a closed set: for an upward set an antichain element
`A` covers every superset, for a downward set every subset. -/
def Dominates : ClosedSetType → Node → Node → Prop
  | .upward_closed_set, a, b => a ⊆ b
  | .downward_closed_set, a, b => b ⊆ a

instance (ty : ClosedSetType) (a b : Node) : Decidable (Dominates ty a b) := by
  cases ty
  · exact inferInstanceAs (Decidable (a ⊆ b))
  · exact inferInstanceAs (Decidable (b ⊆ a))

/-- An empty closed set with the given direction and bounds. -/
def emptyCS (ty : ClosedSetType) (lo hi : Nat) : StateClosedSet :=
  ⟨ty, lo, hi, []⟩

namespace StateClosedSet

/-- Modelled from the spec (§4.6 Insert): drop the new node if an existing
antichain element dominates it, otherwise remove every element it dominates
and append it. -/
def insertNode (c : StateClosedSet) (n : Node) : StateClosedSet :=
  if c.antichain.any (fun a => decide (Dominates c.type a n)) then c
  else { c with antichain := c.antichain.filter (fun a => !decide (Dominates c.type n a)) ++ [n] }

/-- Modelled from the spec (§4.6 Insert(many)): fold insertion. -/
def insertMany (c : StateClosedSet) (l : Nodes) : StateClosedSet :=
  l.foldl insertNode c

/-- Modelled from the spec (§4.6 Union): insert the other antichain. -/
def union (c d : StateClosedSet) : StateClosedSet :=
  c.insertMany d.antichain

/-- Modelled from the spec (§4.6 Containment of a Node). -/
def containsNode (c : StateClosedSet) (n : Node) : Bool :=
  c.antichain.any (fun a => decide (Dominates c.type a n))

/-- Modelled from the spec (§4.6 Inclusion of sets). -/
def incl (c d : StateClosedSet) : Bool :=
  c.antichain.all (fun a => d.containsNode a)

/-- Modelled from the spec (§4.6 Equality): mutual inclusion. -/
def eqCS (c d : StateClosedSet) : Bool :=
  c.incl d && d.incl c

/-- Pointwise node operation used by intersection: union of nodes for an
upward set, intersection for a downward set (spec §4.6 Intersection). -/
def nodeOp : ClosedSetType → Node → Node → Node
  | .upward_closed_set, a, b => a ∪ b
  | .downward_closed_set, a, b => a ∩ b

/-- Modelled from the spec (§4.6 Intersection): combine every pair of
antichain elements and insert the results into a fresh closed set. -/
def inter (c d : StateClosedSet) : StateClosedSet :=
  insertMany (emptyCS c.type c.min c.max)
    (c.antichain.flatMap (fun a => d.antichain.map (fun b => nodeOp c.type a b)))

/-- Modelled from the spec: the constructor taking an initial `Nodes` value
canonicalizes it by insertion (spec §4.6, invariant I-3). -/
def ofNodes (ty : ClosedSetType) (lo hi : Nat) (l : Nodes) : StateClosedSet :=
  insertMany (emptyCS ty lo hi) l

/-- Semantic membership of a node in the set a closed set represents. -/
def Mem (c : StateClosedSet) (n : Node) : Prop :=
  ∃ a ∈ c.antichain, Dominates c.type a n

end StateClosedSet


/-- An upper bound on the elements of a finite set of naturals. -/
def finsetUB (s : Finset Nat) : Nat :=
  s.fold max 0 id

/-- The sorted vector of a node's states; `OrdVec` iterates its states in
increasing order, and `*(node.begin())` is the head of this list.  The
list is produced by filtering an enumeration, which keeps it ascending and
duplicate-free. -/
def nodeList (n : Node) : List Nat :=
  (List.range (finsetUB n + 1)).filter (fun a => decide (a ∈ n))


namespace Afa

/-- State count of the automaton (`transRelation.size()`). -/
def stateCount (afa : Afa) : Nat :=
  afa.transRelation.length

/-- Lookup part of `Afa::perform_trans` (afa.cc:167): scan the source
state's transition vector for the first entry with the given symbol and
return a copy of its `dst`, or the empty `Nodes` if there is none. -/
def perform_trans_raw (afa : Afa) (src symb : Nat) : Nodes :=
  match (afa.transRelation.getD src []).find? (fun t => t.symb == symb) with
  | some t => t.dst
  | none => []

/-- Full `Afa::perform_trans` (afa.cc:167): the source asserts
`src < transRelation.size()`; the failed assert is modelled as `none`. -/
def perform_trans (afa : Afa) (src symb : Nat) : Option Nodes :=
  if src < afa.transRelation.length then some (perform_trans_raw afa src symb) else none

/-- Appending a transition to the source state's vector
(`transRelation[trans.src].push_back(trans)`, afa.cc:70). -/
def pushTrans (afa : Afa) (t : Trans) : Afa :=
  { afa with
    transRelation :=
      afa.transRelation.set t.src ((afa.transRelation.getD t.src []) ++ [t]) }

/-- The `Afa::add_trans` function (afa.cc:51).  When `perform_trans` yields a
non-empty result the source builds a `StateClosedSet` over the returned
value, inserts `trans.dst` and writes the antichain back — but
`perform_trans` returned a freshly allocated copy of the stored `dst`
(`std::make_unique<Nodes>(transVec.dst)`), so the write lands in that copy
and the automaton is unchanged.  When the result is empty the transition is
appended to the source state's vector.  A failed bounds assert (inside
`perform_trans`) is `none`. -/
def add_trans (afa : Afa) (t : Trans) : Option Afa :=
  match perform_trans afa t.src t.symb with
  | none => none
  | some nodes =>
    if nodes.isEmpty then
      some (pushTrans afa t)
    else
      some afa

/-- Lookup of `Afa::perform_inverse_trans` (afa.cc:333).  The source indexes
`inverseTransRelation[src]` with no bounds assert (unlike `perform_trans`);
an out-of-bounds access is undefined behaviour in the source and is
modelled by the total `getD` lookup. -/
def perform_inverse_trans_raw (afa : Afa) (src symb : Nat) : List InverseResults :=
  match (afa.inverseTransRelation.getD src []).find? (fun e => e.symb == symb) with
  | some e => e.inverseResults
  | none => []

/-- Append an inverse result to the first bucket carrying the given symbol
(the `break`-terminated loop at afa.cc:139). -/
def pushToBucket : List InverseTrans → Nat → InverseResults → List InverseTrans
  | [], _, _ => []
  | e :: rest, symb, r =>
    if e.symb == symb then { e with inverseResults := e.inverseResults ++ [r] } :: rest
    else e :: pushToBucket rest symb r

/-- Body of the per-node loop of `Afa::add_inverse_trans` (afa.cc:80).  The
`found` branch of the source inserts `src` into `result.result_nodes` where
`result` iterates over the by-value vector returned by
`perform_inverse_trans`; the insertion mutates that copy and is lost, so
the branch leaves the automaton unchanged.  `storeTo` is
`*(node.begin())` (undefined on an empty node in the source; modelled as 0). -/
def add_inverse_trans_node (afa : Afa) (src symb : Nat) (node : Node) : Afa :=
  let storeTo := (nodeList node).headD 0
  let results := perform_inverse_trans_raw afa storeTo symb
  if results.any (fun r => r.sharing_list == node) then
    afa
  else if results.isEmpty then
    { afa with
      inverseTransRelation :=
        afa.inverseTransRelation.set storeTo
          ((afa.inverseTransRelation.getD storeTo []) ++ [⟨symb, [⟨{src}, node⟩]⟩]) }
  else
    { afa with
      inverseTransRelation :=
        afa.inverseTransRelation.set storeTo
          (pushToBucket (afa.inverseTransRelation.getD storeTo []) symb ⟨{src}, node⟩) }

/-- The `Afa::add_inverse_trans` function (afa.cc:80): fold the per-node
update over the destination nodes of the transition. -/
def add_inverse_trans (afa : Afa) (t : Trans) : Afa :=
  t.dst.foldl (fun a node => add_inverse_trans_node a t.src t.symb node) afa

/-- The `Afa::post(State, Symbol)` overload (afa.cc:189).  The call goes
through `perform_trans`, whose bounds assert is recorded as a precondition
on the theorems below; the lookup itself is total. -/
def postState (afa : Afa) (state symb : Nat) : StateClosedSet :=
  let result := perform_trans_raw afa state symb
  if result.isEmpty then
    emptyCS .upward_closed_set 0 (afa.transRelation.length - 1)
  else
    StateClosedSet.ofNodes .upward_closed_set 0 (afa.transRelation.length - 1) result

/-- The `Afa::post(Node, Symbol)` overload (afa.cc:210): for the empty node
insert the empty node into a fresh set; otherwise seed the result with the
first state's post and intersect with the remaining states' posts. -/
def postNode (afa : Afa) (node : Node) (symb : Nat) : StateClosedSet :=
  let empty := emptyCS .upward_closed_set 0 (afa.transRelation.length - 1)
  match nodeList node with
  | [] => empty.insertNode node
  | s :: rest =>
    rest.foldl (fun acc s2 => acc.inter (postState afa s2 symb))
      (empty.insertMany (postState afa s symb).antichain)

/-- The `Afa::post(Nodes, Symbol)` overload (afa.cc:246): union of the
per-node posts, realised by inserting each antichain. -/
def postNodes (afa : Afa) (nodes : Nodes) (symb : Nat) : StateClosedSet :=
  nodes.foldl (fun acc n => acc.insertMany (postNode afa n symb).antichain)
    (emptyCS .upward_closed_set 0 (afa.transRelation.length - 1))

/-- The `Afa::post(StateClosedSet, Symbol)` overload (afa.cc:266); the source
asserts the set is upward closed. -/
def postCS (afa : Afa) (c : StateClosedSet) (symb : Nat) : StateClosedSet :=
  postNodes afa c.antichain symb

/-- The `Afa::post(Node)` overload (afa.cc:283): symbols are enumerated from
the move list of the node's minimal state (`*(node.begin())`). -/
def postNodeAll (afa : Afa) (node : Node) : StateClosedSet :=
  match nodeList node with
  | [] =>
    StateClosedSet.ofNodes .upward_closed_set 0 (afa.transRelation.length - 1) [∅]
  | s :: _ =>
    (afa.transRelation.getD s []).foldl
      (fun acc t => acc.insertMany (postNode afa node t.symb).antichain)
      (emptyCS .upward_closed_set 0 (afa.transRelation.length - 1))

/-- The `Afa::post(Nodes)` overload (afa.cc:305). -/
def postNodesAll (afa : Afa) (nodes : Nodes) : StateClosedSet :=
  nodes.foldl (fun acc n => acc.insertMany (postNodeAll afa n).antichain)
    (emptyCS .upward_closed_set 0 (afa.transRelation.length - 1))

/-- Modelled from the spec: the symbol-less `post` over a closed set used by
the forward emptiness tests is declared in afa.hh (not under src/); by
spec §4.8 it is the post of the set's antichain. -/
def postCSAll (afa : Afa) (c : StateClosedSet) : StateClosedSet :=
  postNodesAll afa c.antichain

/-- The `Afa::perform_inverse_trans(Node, Symbol)` overload (afa.cc:353):
concatenate the per-state inverse results over the node's states. -/
def perform_inverse_trans_node (afa : Afa) (node : Node) (symb : Nat) : List InverseResults :=
  (nodeList node).flatMap (fun s => perform_inverse_trans_raw afa s symb)

/-- The `Afa::pre(Node, Symbol)` overload (afa.cc:372): collect the result
states of every candidate whose sharing list is contained in the node, and
return the downward closure of the collected node. -/
def preNode (afa : Afa) (node : Node) (symb : Nat) : StateClosedSet :=
  let candidates := perform_inverse_trans_node afa node symb
  let result := candidates.foldl
    (fun acc c => if c.sharing_list ⊆ node then acc ∪ c.result_nodes else acc)
    (∅ : Finset Nat)
  StateClosedSet.ofNodes .downward_closed_set 0 (afa.transRelation.length - 1) [result]

/-- The `Afa::pre(Nodes, Symbol)` overload (afa.cc:397): union of the
per-node pres. -/
def preNodes (afa : Afa) (nodes : Nodes) (symb : Nat) : StateClosedSet :=
  nodes.foldl (fun acc n => acc.union (preNode afa n symb))
    (emptyCS .downward_closed_set 0 (afa.transRelation.length - 1))

/-- The `Afa::pre(StateClosedSet, Symbol)` overload (afa.cc:413); the source
asserts the set is downward closed. -/
def preCS (afa : Afa) (c : StateClosedSet) (symb : Nat) : StateClosedSet :=
  preNodes afa c.antichain symb

/-- The `Afa::pre(Node)` overload (afa.cc:425): symbols are enumerated from
the inverse buckets of the node's minimal state. -/
def preNodeAll (afa : Afa) (node : Node) : StateClosedSet :=
  match nodeList node with
  | [] =>
    StateClosedSet.ofNodes .downward_closed_set 0 (afa.transRelation.length - 1) [∅]
  | s :: _ =>
    (afa.inverseTransRelation.getD s []).foldl
      (fun acc e => acc.insertMany (preNode afa node e.symb).antichain)
      (emptyCS .downward_closed_set 0 (afa.transRelation.length - 1))

/-- The `Afa::pre(Nodes)` overload (afa.cc:444). -/
def preNodesAll (afa : Afa) (nodes : Nodes) : StateClosedSet :=
  nodes.foldl (fun acc n => acc.insertMany (preNodeAll afa n).antichain)
    (emptyCS .downward_closed_set 0 (afa.transRelation.length - 1))

/-- Modelled from the spec: the symbol-less `pre` over a closed set used by
the backward emptiness tests (declared in afa.hh, not under src/). -/
def preCSAll (afa : Afa) (c : StateClosedSet) : StateClosedSet :=
  preNodesAll afa c.antichain

/-- The `Afa::has_trans` function (afa.cc:457): the stored nodes must be
non-empty and every stored node must occur in the queried `dst`.  The
bounds assert of `perform_trans` is inherited. -/
def has_trans (afa : Afa) (t : Trans) : Option Bool :=
  (perform_trans afa t.src t.symb).map
    (fun res => !res.isEmpty && res.all (fun a => decide (a ∈ t.dst)))

/-- The `Afa::trans_size` function (afa.cc:468). -/
def trans_size (afa : Afa) : Nat :=
  afa.transRelation.foldl (fun acc row => acc + row.length) 0

/-- The `Afa::get_initial_nodes` function (afa.cc:481): the upward closed
set built by inserting a singleton node for every initial state. -/
def get_initial_nodes (afa : Afa) : StateClosedSet :=
  (List.range afa.transRelation.length).foldl
    (fun acc s => if s ∈ afa.initialstates then acc.insertNode {s} else acc)
    (emptyCS .upward_closed_set 0 (afa.transRelation.length - 1))

/-- The `Afa::get_non_initial_nodes` function (afa.cc:497): the downward
closure of the single node collecting every non-initial state. -/
def get_non_initial_nodes (afa : Afa) : StateClosedSet :=
  let subresult := (List.range afa.transRelation.length).foldl
    (fun acc s => if s ∈ afa.initialstates then acc else insert s acc) (∅ : Finset Nat)
  StateClosedSet.ofNodes .downward_closed_set 0 (afa.transRelation.length - 1) [subresult]

/-- The `Afa::get_final_nodes` function (afa.cc:513): the downward closure
of the single node collecting every final state. -/
def get_final_nodes (afa : Afa) : StateClosedSet :=
  let subresult := (List.range afa.transRelation.length).foldl
    (fun acc s => if s ∈ afa.finalstates then insert s acc else acc) (∅ : Finset Nat)
  StateClosedSet.ofNodes .downward_closed_set 0 (afa.transRelation.length - 1) [subresult]

/-- The `Afa::get_non_final_nodes` function (afa.cc:529): the upward closed
set built by inserting a singleton node for every non-final state. -/
def get_non_final_nodes (afa : Afa) : StateClosedSet :=
  (List.range afa.transRelation.length).foldl
    (fun acc s => if s ∈ afa.finalstates then acc else acc.insertNode {s})
    (emptyCS .upward_closed_set 0 (afa.transRelation.length - 1))

end Afa

/-- Loop of `antichain_concrete_forward_emptiness_test_old` (afa.cc:613).
The source loop runs until the fixed point; the model carries explicit
fuel and returns `none` when it is exhausted. -/
def forwardOldLoop (aut : Afa) (goal : StateClosedSet) :
    Nat → StateClosedSet → StateClosedSet → Option Bool
  | 0, _, _ => none
  | fuel + 1, current, next =>
    if current.eqCS next then some true
    else
      let current2 := next
      let next2 := current2.union (aut.postCSAll current2)
      if !next2.incl goal then some false
      else forwardOldLoop aut goal fuel current2 next2

/-- The `antichain_concrete_forward_emptiness_test_old` function
(afa.cc:613).  The default-constructed `StateClosedSet()` of the source
(closed_set.hh, not under src/) is modelled as an empty upward set. -/
def antichain_concrete_forward_emptiness_test_old (fuel : Nat) (aut : Afa) : Option Bool :=
  forwardOldLoop aut aut.get_non_final_nodes fuel
    (emptyCS .upward_closed_set 0 0) aut.get_initial_nodes

/-- Worklist loop of `antichain_concrete_forward_emptiness_test_new`
(afa.cc:641).  The worklist is a stack (vector back/pop_back), modelled
with the list head as the top; the source pushes the post antichain's
nodes in order, so later nodes end nearer the top. -/
def forwardNewLoop (aut : Afa) (goal : StateClosedSet) :
    Nat → StateClosedSet → Finset Node → List Node → Option Bool
  | 0, _, _, _ => none
  | fuel + 1, result, processed, worklist =>
    match worklist with
    | [] => some true
    | current :: rest =>
      let post_current := aut.postNodeAll current
      let result2 := result.union post_current
      if post_current.antichain.any (fun n => !goal.containsNode n) then some false
      else
        forwardNewLoop aut goal fuel result2 (insert current processed)
          (post_current.antichain.foldl
            (fun wl n => if n ∈ processed then wl else n :: wl) rest)

/-- The `antichain_concrete_forward_emptiness_test_new` function
(afa.cc:641). -/
def antichain_concrete_forward_emptiness_test_new (fuel : Nat) (aut : Afa) : Option Bool :=
  let goal := aut.get_non_final_nodes
  let result := aut.get_initial_nodes
  let worklist := aut.get_initial_nodes.antichain.reverse
  if !result.incl goal then some false
  else forwardNewLoop aut goal fuel result ∅ worklist

/-- Loop of `antichain_concrete_backward_emptiness_test_old` (afa.cc:685). -/
def backwardOldLoop (aut : Afa) (goal : StateClosedSet) :
    Nat → StateClosedSet → StateClosedSet → Option Bool
  | 0, _, _ => none
  | fuel + 1, current, next =>
    if current.eqCS next then some true
    else
      let current2 := next
      let next2 := current2.union (aut.preCSAll current2)
      if !next2.incl goal then some false
      else backwardOldLoop aut goal fuel current2 next2

/-- The `antichain_concrete_backward_emptiness_test_old` function
(afa.cc:685). -/
def antichain_concrete_backward_emptiness_test_old (fuel : Nat) (aut : Afa) : Option Bool :=
  backwardOldLoop aut aut.get_non_initial_nodes fuel
    (emptyCS .upward_closed_set 0 0) aut.get_final_nodes

/-- Worklist loop of `antichain_concrete_backward_emptiness_test_new`
(afa.cc:714). -/
def backwardNewLoop (aut : Afa) (goal : StateClosedSet) :
    Nat → StateClosedSet → Finset Node → List Node → Option Bool
  | 0, _, _, _ => none
  | fuel + 1, result, processed, worklist =>
    match worklist with
    | [] => some true
    | current :: rest =>
      let pre_current := aut.preNodeAll current
      let result2 := result.union pre_current
      if pre_current.antichain.any (fun n => !goal.containsNode n) then some false
      else
        backwardNewLoop aut goal fuel result2 (insert current processed)
          (pre_current.antichain.foldl
            (fun wl n => if n ∈ processed then wl else n :: wl) rest)

/-- The `antichain_concrete_backward_emptiness_test_new` function
(afa.cc:714). -/
def antichain_concrete_backward_emptiness_test_new (fuel : Nat) (aut : Afa) : Option Bool :=
  let goal := aut.get_non_initial_nodes
  let result := aut.get_final_nodes
  let worklist := aut.get_final_nodes.antichain.reverse
  if !result.incl goal then some false
  else backwardNewLoop aut goal fuel result ∅ worklist

/-! Serialization (afa.cc:768). -/

/-- The type tag of AFA sections (`Mata::Afa::TYPE_AFA`, afa.cc:36). -/
def TYPE_AFA : String := "AFA"

/-- A parsed section (`Mata::Parser::ParsedSection`): a type tag, a
string-keyed dictionary of string lists and a body of token lines. -/
structure ParsedSection where
  type : String
  dict : List (String × List String)
  body : List (List String)
deriving DecidableEq

/-- The state namer built by `serialize` (afa.cc:778): with no map a state
s is named "q" followed by its number; with a map, the lookup result, and
a missing entry is a failure. -/
def stateNamer (state_map : Option (List (Nat × String))) (st : Nat) : Option String :=
  match state_map with
  | none => some ("q" ++ toString st)
  | some m => (m.find? (fun e => e.1 == st)).map (fun e => e.2)

/-- Naming loop of `serialize` over a state list: the first state without a
name aborts the call with the translation error
(`throw std::runtime_error("cannot translate state ...")`, afa.cc:811). -/
def nameAll (namer : Nat → Option String) : List Nat → Except String (List String)
  | [] => .ok []
  | s :: rest =>
    match namer s with
    | none => .error ("cannot translate state " ++ toString s)
    | some n =>
      match nameAll namer rest with
      | .ok ns => .ok (n :: ns)
      | .error e => .error e

/-- The `Mata::Afa::serialize` function (afa.cc:768): emits the type tag and
the Initial/Final name lists.  The symbol namer is constructed by the
source but never used, because transition serialization is left as a TODO
(afa.cc:825): the body stays empty and symbols are never translated. -/
def serialize (aut : Afa) (symbol_map : Option (List (Nat × String)))
    (state_map : Option (List (Nat × String))) : Except String ParsedSection :=
  match nameAll (stateNamer state_map) (nodeList aut.initialstates) with
  | .error e => .error e
  | .ok inits =>
    match nameAll (stateNamer state_map) (nodeList aut.finalstates) with
    | .error e => .error e
    | .ok fins => .ok ⟨TYPE_AFA, [("Initial", inits), ("Final", fins)], []⟩

/-! NFA product construction (src/unnamed/part_000, nfa-intersection.cc). -/

/-- A move: a symbol together with its ordered set of target states. -/
structure Move where
  symbol : Nat
  states_to : Finset Nat
deriving DecidableEq

/-- The NFA: per-state move lists and the initial/final state containers
(filled by `push_back`; membership is what `has_final` consults). -/
structure Nfa where
  transition_relation : List (List Move)
  initial_states : List Nat
  final_states : List Nat
deriving DecidableEq

/-- The `has_final` membership test of the NFA. -/
def Nfa.has_final (n : Nfa) (s : Nat) : Bool :=
  n.final_states.any (fun x => x == s)

/-- Replace one state's move list. -/
def Nfa.setRow (n : Nfa) (r : Nat) (row : List Move) : Nfa :=
  { n with transition_relation := n.transition_relation.set r row }

/-- Modelled from the spec (§3, nfa.hh not under src/): the distinguished
epsilon symbol, larger than every ordinary symbol so that it sorts last in
a move list. -/
def EPSILON : Nat := 4294967295

/-- Configuration of the product construction: the product automaton under
construction, the pair-to-product-state map, and the pending pair
worklist.  The source keeps the map in an unordered_map and the worklist
in an unordered_set with unspecified iteration order; the model stores
both as lists, appends new entries and pops the head. -/
structure ProdCfg where
  product : Nfa
  product_map : List ((Nat × Nat) × Nat)
  pairs_to_process : List (Nat × Nat)
deriving DecidableEq

/-- Lookup in the pair-to-product-state map. -/
def mapLookup (m : List ((Nat × Nat) × Nat)) (k : Nat × Nat) : Option Nat :=
  (m.find? (fun e => decide (e.1 = k))).map (fun e => e.2)

/-- Merge a move into a state's move list: union the targets into the first
entry carrying the same symbol, or append the move when no entry does
(the find/push_back/union split of `add_product_transition`,
part_000:40). -/
def addMoveToRow : List Move → Move → List Move
  | [], mv => [mv]
  | m :: rest, mv =>
    if m.symbol == mv.symbol then
      { m with states_to := m.states_to ∪ mv.states_to } :: rest
    else
      m :: addMoveToRow rest mv

/-- Allocation of a fresh product state for a pair new to the map
(the then-branch of `create_product_state_and_trans`, part_000:70):
`add_state` appends a fresh empty row and yields its index, the mapping is
recorded, the pair is enqueued, and the state is marked final iff both
components are final. -/
def allocProductState (lhs rhs : Nfa) (cfg : ProdCfg) (p q : Nat) : ProdCfg :=
  ⟨⟨cfg.product.transition_relation ++ [[]], cfg.product.initial_states,
      if lhs.has_final p && rhs.has_final q then
        cfg.product.final_states ++ [cfg.product.transition_relation.length]
      else cfg.product.final_states⟩,
    cfg.product_map ++ [((p, q), cfg.product.transition_relation.length)],
    cfg.pairs_to_process ++ [(p, q)]⟩

/-- The `create_product_state_and_trans` helper (part_000:58): look the
target pair up; allocate a fresh product state when absent; in both cases
add the product state to the accumulated move's targets. -/
def create_product_state_and_trans (cfg : ProdCfg) (lhs rhs : Nfa)
    (lhs_state_to rhs_state_to : Nat) (mv : Move) : ProdCfg × Move :=
  match mapLookup cfg.product_map (lhs_state_to, rhs_state_to) with
  | some r => (cfg, { mv with states_to := insert r mv.states_to })
  | none =>
    (allocProductState lhs rhs cfg lhs_state_to rhs_state_to,
      { mv with states_to := insert cfg.product.transition_relation.length mv.states_to })

/-- The `add_product_transition` helper (part_000:34): skip empty moves,
otherwise merge the move into the row of the product state the processed
pair is mapped to.  The source reads `product_map[pair_to_process]`, which
is always present because processed pairs were mapped when enqueued; the
`getD 0` default mirrors the value-initialisation of `operator[]`. -/
def add_product_transition (cfg : ProdCfg) (pair : Nat × Nat) (mv : Move) : ProdCfg :=
  if mv.states_to = ∅ then cfg
  else
    let r := (mapLookup cfg.product_map pair).getD 0
    ⟨cfg.product.setRow r (addMoveToRow (cfg.product.transition_relation.getD r []) mv),
      cfg.product_map, cfg.pairs_to_process⟩

/-- Modelled from the spec (§4.2): the synchronized 2-way iterator of
util.hh (`SynchronizedUniverzalIterator`, not under src/), which yields
groups of entries sharing a symbol, in increasing symbol order; for the
sorted move lists of two states this is the list of matching pairs in
move-list order. -/
def syncPairs (l r : List Move) : List (Move × Move) :=
  l.filterMap (fun m => (r.find? (fun m2 => m2.symbol == m.symbol)).map (fun m2 => (m, m2)))

/-- Fold of `create_product_state_and_trans` over a list of target pairs,
accumulating the configuration and the move being built. -/
def createAll (lhs rhs : Nfa) (targets : List (Nat × Nat)) (start : ProdCfg × Move) :
    ProdCfg × Move :=
  targets.foldl (fun acc pr => create_product_state_and_trans acc.1 lhs rhs pr.1 pr.2 acc.2)
    start

/-- Target pairs T_l × T_r of a synchronized move pair, enumerated the way
the source's nested range loops enumerate the two ordered sets. -/
def targetPairs (tl tr : Finset Nat) : List (Nat × Nat) :=
  (nodeList tl).flatMap (fun a => (nodeList tr).map (fun b => (a, b)))

/-- One round of the synchronous classical step (part_000:122): build the
product move for one synchronized move pair and merge it into the row of
the processed pair's product state. -/
def classicRound (lhs rhs : Nfa) (pair : Nat × Nat) (c : ProdCfg) (mm : Move × Move) :
    ProdCfg :=
  let st := createAll lhs rhs (targetPairs mm.1.states_to mm.2.states_to)
    (c, ⟨mm.1.symbol, ∅⟩)
  add_product_transition st.1 pair st.2

/-- The synchronous classical step of the worklist body (part_000:118):
run the synchronized iterator over the two move lists and process every
synchronized group. -/
def classicStep (lhs rhs : Nfa) (cfg : ProdCfg) (pair : Nat × Nat) : ProdCfg :=
  (syncPairs (lhs.transition_relation.getD pair.1 [])
      (rhs.transition_relation.getD pair.2 [])).foldl (classicRound lhs rhs pair) cfg

/-- The lhs epsilon block (part_000:147): when the move list of the lhs
component is non-empty and its last entry carries `EPSILON`, pair each of
its targets with the rhs component and merge the resulting epsilon move. -/
def epsStepL (lhs rhs : Nfa) (cfg : ProdCfg) (pair : Nat × Nat) : ProdCfg :=
  match (lhs.transition_relation.getD pair.1 []).getLast? with
  | some lastMove =>
    if lastMove.symbol == EPSILON then
      let st := createAll lhs rhs ((nodeList lastMove.states_to).map (fun a => (a, pair.2)))
        (cfg, ⟨EPSILON, ∅⟩)
      add_product_transition st.1 pair st.2
    else cfg
  | none => cfg

/-- The rhs epsilon block (part_000:165), symmetric to `epsStepL`. -/
def epsStepR (lhs rhs : Nfa) (cfg : ProdCfg) (pair : Nat × Nat) : ProdCfg :=
  match (rhs.transition_relation.getD pair.2 []).getLast? with
  | some lastMove =>
    if lastMove.symbol == EPSILON then
      let st := createAll lhs rhs ((nodeList lastMove.states_to).map (fun b => (pair.1, b)))
        (cfg, ⟨EPSILON, ∅⟩)
      add_product_transition st.1 pair st.2
    else cfg
  | none => cfg

/-- The body of the worklist loop of `Mata::Nfa::intersection`
(part_000:114): the synchronous classical step over the shared symbols,
followed, when `preserve_epsilon` is set, by the lhs and rhs epsilon
blocks. -/
def processPair (lhs rhs : Nfa) (preserve_epsilon : Bool) (cfg : ProdCfg)
    (pair : Nat × Nat) : ProdCfg :=
  if preserve_epsilon then
    epsStepR lhs rhs (epsStepL lhs rhs (classicStep lhs rhs cfg pair) pair) pair
  else
    classicStep lhs rhs cfg pair

/-- One initialization step of `intersection` (part_000:98): allocate a
product state for an initial pair, record the mapping, enqueue the pair,
mark the state initial, and mark it final when both components are
final. -/
def initPair (lhs rhs : Nfa) (cfg : ProdCfg) (p q : Nat) : ProdCfg :=
  let c := allocProductState lhs rhs cfg p q
  ⟨⟨c.product.transition_relation,
      c.product.initial_states ++ [cfg.product.transition_relation.length],
      c.product.final_states⟩,
    c.product_map, c.pairs_to_process⟩

/-- The initialization loop of `intersection` (part_000:98) over all pairs
of initial states. -/
def intersectionInit (lhs rhs : Nfa) : ProdCfg :=
  lhs.initial_states.foldl
    (fun cfg p => rhs.initial_states.foldl (fun c q => initPair lhs rhs c p q) cfg)
    ⟨⟨[], [], []⟩, [], []⟩

/-- The worklist loop of `intersection` (part_000:114), with explicit fuel;
when the fuel runs out the partial configuration is returned as is. -/
def intersectionLoop (lhs rhs : Nfa) (preserve_epsilon : Bool) : Nat → ProdCfg → ProdCfg
  | 0, cfg => cfg
  | fuel + 1, cfg =>
    match cfg.pairs_to_process with
    | [] => cfg
    | pair :: rest =>
      intersectionLoop lhs rhs preserve_epsilon fuel
        (processPair lhs rhs preserve_epsilon ⟨cfg.product, cfg.product_map, rest⟩ pair)

/-- The `Mata::Nfa::intersection` function (part_000:89); the returned
configuration carries both the product automaton and the product map. -/
def intersection (fuel : Nat) (lhs rhs : Nfa) (preserve_epsilon : Bool) : ProdCfg :=
  intersectionLoop lhs rhs preserve_epsilon fuel (intersectionInit lhs rhs)

/-- Presence of a transition r —σ→ r2 in an NFA. -/
def hasProdTrans (n : Nfa) (r σ r2 : Nat) : Prop :=
  ∃ m ∈ n.transition_relation.getD r [], m.symbol = σ ∧ r2 ∈ m.states_to

/-- The lhs epsilon-preservation obligation for a processed pair (p, q): if
the move list of p is non-empty and its last entry carries `EPSILON`, then
for every target p2 both (p, q) and (p2, q) are mapped to product states
joined by an epsilon transition. -/
def EpsDoneL (lhs : Nfa) (cfg : ProdCfg) (p q : Nat) : Prop :=
  ∀ lastMove, (lhs.transition_relation.getD p []).getLast? = some lastMove →
    lastMove.symbol = EPSILON →
    ∀ p2 ∈ lastMove.states_to, ∃ r r2,
      mapLookup cfg.product_map (p, q) = some r
      ∧ mapLookup cfg.product_map (p2, q) = some r2
      ∧ hasProdTrans cfg.product r EPSILON r2

/-- The rhs epsilon-preservation obligation, symmetric to `EpsDoneL`. -/
def EpsDoneR (rhs : Nfa) (cfg : ProdCfg) (p q : Nat) : Prop :=
  ∀ lastMove, (rhs.transition_relation.getD q []).getLast? = some lastMove →
    lastMove.symbol = EPSILON →
    ∀ q2 ∈ lastMove.states_to, ∃ r r2,
      mapLookup cfg.product_map (p, q) = some r
      ∧ mapLookup cfg.product_map (p, q2) = some r2
      ∧ hasProdTrans cfg.product r EPSILON r2

/-- Invariant of the product construction used for the finality claim:
mapped product states and final states are allocated (index < state
count), and a mapped product state is final iff both of its components
are final. -/
def Inv4 (lhs rhs : Nfa) (cfg : ProdCfg) : Prop :=
  (∀ e ∈ cfg.product_map, e.2 < cfg.product.transition_relation.length)
  ∧ (∀ r ∈ cfg.product.final_states, r < cfg.product.transition_relation.length)
  ∧ (∀ p q r, mapLookup cfg.product_map (p, q) = some r →
      (r ∈ cfg.product.final_states ↔ (lhs.has_final p = true ∧ rhs.has_final q = true)))

/-- Monotone growth of a configuration: established map entries and
product transitions survive. -/
def Extends (cfg cfg2 : ProdCfg) : Prop :=
  (∀ k r, mapLookup cfg.product_map k = some r → mapLookup cfg2.product_map k = some r)
  ∧ (∀ r σ r2, hasProdTrans cfg.product r σ r2 → hasProdTrans cfg2.product r σ r2)

/-- Every pending pair is mapped. -/
def PendingMapped (cfg : ProdCfg) : Prop :=
  ∀ pr ∈ cfg.pairs_to_process, ∃ r, mapLookup cfg.product_map pr = some r

/-- Invariant for the epsilon-preservation claim: every mapped pair is
either still pending or its epsilon obligations hold. -/
def EpsInv (lhs rhs : Nfa) (cfg : ProdCfg) : Prop :=
  ∀ e ∈ cfg.product_map, e.1 ∈ cfg.pairs_to_process
    ∨ (EpsDoneL lhs cfg e.1.1 e.1.2 ∧ EpsDoneR rhs cfg e.1.1 e.1.2)

/-- Bookkeeping of one construction step: map entries are only added
together with a pending entry, and pending entries are never dropped. -/
def StepAdds (cfg cfg2 : ProdCfg) : Prop :=
  (∀ e ∈ cfg2.product_map, e ∈ cfg.product_map ∨ e.1 ∈ cfg2.pairs_to_process)
  ∧ (∀ pr ∈ cfg.pairs_to_process, pr ∈ cfg2.pairs_to_process)

/-! Concrete automata used to exercise the claims. -/

/-- The NFA of scenario S-1: two states, initial 0, final 1, one move
0 —a→ {1} (symbol a is 0). -/
def exNfa1 : Nfa := ⟨[[⟨0, {1}⟩], []], [0], [1]⟩

/-- An NFA with an epsilon move 0 —ε→ {1}, initial 0, final 1
(scenario S-3 lhs). -/
def exNfaEps : Nfa := ⟨[[⟨EPSILON, {1}⟩], []], [0], [1]⟩

/-- A one-state NFA whose single state is initial and final
(scenario S-3 rhs). -/
def exNfaOne : Nfa := ⟨[[]], [0], [0]⟩

/-- A one-state AFA with one transition on symbol 7, initial state 0 and no
final states. -/
def exAfaS : Afa := ⟨[[⟨0, 7, [{0}]⟩]], [[]], {0}, ∅⟩

/-- A two-state AFA shell: states 0 and 1, initial state 1, final state 0,
no transitions yet. -/
def exAfa0 : Afa := ⟨[[], []], [[], []], {1}, {0}⟩

/-- The forward relation obtained from `exAfa0` by adding the transitions
(0, a, {{0}}) and (1, a, {{0}}) with `add_trans` (symbol a is 0). -/
def exAfaMid : Afa := ⟨[[⟨0, 0, [{0}]⟩], [⟨1, 0, [{0}]⟩]], [[], []], {1}, {0}⟩

/-- The automaton obtained from `exAfaMid` by registering the same two
transitions with `add_inverse_trans`: the second registration is dropped,
so the inverse relation only records state 0 as a predecessor of {0}. -/
def exAfa1 : Afa := ⟨[[⟨0, 0, [{0}]⟩], [⟨1, 0, [{0}]⟩]], [[⟨0, [⟨{0}, {0}⟩]⟩], []], {1}, {0}⟩

/-- A one-state AFA with the stored transition (0, a, {{0,1}}). -/
def afaC2 : Afa := ⟨[[⟨0, 0, [{0, 1}]⟩]], [[]], ∅, ∅⟩

/-- A two-state AFA whose inverse relation already stores the inverse
result (result_nodes = {0}, sharing_list = {0}) at state 0, symbol a. -/
def afaC3 : Afa := ⟨[[], []], [[⟨0, [⟨{0}, {0}⟩]⟩], []], ∅, ∅⟩

/-- A one-state AFA with no transitions. -/
def afa8 : Afa := ⟨[[]], [[]], ∅, ∅⟩

/-- A one-state AFA whose transition row stores an entry with an empty
destination, as produced by `add_trans` on a transition with `dst = {}`. -/
def afaC7 : Afa := ⟨[[⟨0, 0, []⟩]], [[]], ∅, ∅⟩

/-- The automaton `afaC7` after one `add_trans (0, a, {{0}})`: the empty
entry is still first in the row, so another call appends yet again. -/
def afaC7once : Afa := ⟨[[⟨0, 0, []⟩, ⟨0, 0, [{0}]⟩]], [[]], ∅, ∅⟩

/-- The automaton `afaC7` after two `add_trans (0, a, {{0}})` calls. -/
def afaC7twice : Afa := ⟨[[⟨0, 0, []⟩, ⟨0, 0, [{0}]⟩, ⟨0, 0, [{0}]⟩]], [[]], ∅, ∅⟩

/-! Theorems: helper lemmas about the closed-set primitive and the
node enumeration, followed by the claim theorems. -/

theorem dominates_refl (ty : ClosedSetType) (a : Node) : Dominates ty a a := by
  cases ty <;> simp [Dominates]

theorem dominates_trans {ty : ClosedSetType} {a b c : Node}
    (h1 : Dominates ty a b) (h2 : Dominates ty b c) : Dominates ty a c := by
  cases ty
  · exact Finset.Subset.trans h1 h2
  · exact Finset.Subset.trans h2 h1

namespace StateClosedSet

theorem type_insertNode (c : StateClosedSet) (n : Node) :
    (c.insertNode n).type = c.type := by
  unfold insertNode
  split <;> rfl

theorem type_insertMany (c : StateClosedSet) (l : Nodes) :
    (c.insertMany l).type = c.type := by
  induction l generalizing c with
  | nil => rfl
  | cons x xs ih => simpa [insertMany, type_insertNode] using ih (c.insertNode x)

theorem type_union (c d : StateClosedSet) : (c.union d).type = c.type :=
  type_insertMany c d.antichain

theorem type_inter (c d : StateClosedSet) : (c.inter d).type = c.type :=
  type_insertMany _ _

theorem type_ofNodes (ty : ClosedSetType) (lo hi : Nat) (l : Nodes) :
    (ofNodes ty lo hi l).type = ty :=
  type_insertMany _ _

theorem mem_emptyCS (ty : ClosedSetType) (lo hi : Nat) (n : Node) :
    ¬ (emptyCS ty lo hi).Mem n := by
  rintro ⟨a, ha, -⟩
  simp [emptyCS] at ha

theorem mem_insertNode (c : StateClosedSet) (x n : Node) :
    (c.insertNode x).Mem n ↔ c.Mem n ∨ Dominates c.type x n := by
  by_cases h : c.antichain.any (fun a => decide (Dominates c.type a x)) = true
  · have hins : c.insertNode x = c := by
      unfold insertNode
      rw [if_pos h]
    rw [hins]
    constructor
    · exact Or.inl
    · rintro (hm | hd)
      · exact hm
      · simp only [List.any_eq_true, decide_eq_true_eq] at h
        obtain ⟨a, ha, hax⟩ := h
        exact ⟨a, ha, dominates_trans hax hd⟩
  · have hins : c.insertNode x =
        { c with antichain :=
            c.antichain.filter (fun a => !decide (Dominates c.type x a)) ++ [x] } := by
      unfold insertNode
      rw [if_neg h]
    rw [hins]
    unfold Mem
    constructor
    · rintro ⟨a, ha, hd⟩
      rcases List.mem_append.mp ha with ha2 | ha2
      · exact Or.inl ⟨a, (List.mem_filter.mp ha2).1, hd⟩
      · rcases List.mem_singleton.mp ha2 with rfl
        exact Or.inr hd
    · rintro (⟨a, ha, hd⟩ | hd)
      · by_cases hxa : Dominates c.type x a
        · exact ⟨x, List.mem_append.mpr (Or.inr (List.mem_singleton.mpr rfl)),
            dominates_trans hxa hd⟩
        · exact ⟨a, List.mem_append.mpr
            (Or.inl (List.mem_filter.mpr ⟨ha, by simpa using hxa⟩)), hd⟩
      · exact ⟨x, List.mem_append.mpr (Or.inr (List.mem_singleton.mpr rfl)), hd⟩

theorem mem_insertMany (c : StateClosedSet) (l : Nodes) (n : Node) :
    (c.insertMany l).Mem n ↔ c.Mem n ∨ ∃ x ∈ l, Dominates c.type x n := by
  induction l generalizing c with
  | nil => simp [insertMany]
  | cons y ys ih =>
    have hstep : (c.insertMany (y :: ys)) = (c.insertNode y).insertMany ys := rfl
    rw [hstep, ih, mem_insertNode, type_insertNode]
    constructor
    · rintro ((hm | hd) | ⟨x, hx, hd⟩)
      · exact Or.inl hm
      · exact Or.inr ⟨y, List.mem_cons_self y ys, hd⟩
      · exact Or.inr ⟨x, List.mem_cons_of_mem y hx, hd⟩
    · rintro (hm | ⟨x, hx, hd⟩)
      · exact Or.inl (Or.inl hm)
      · rcases List.mem_cons.mp hx with rfl | hx
        · exact Or.inl (Or.inr hd)
        · exact Or.inr ⟨x, hx, hd⟩

theorem mem_union (c d : StateClosedSet) (n : Node) :
    (c.union d).Mem n ↔ c.Mem n ∨ ∃ x ∈ d.antichain, Dominates c.type x n :=
  mem_insertMany c d.antichain n

theorem mem_ofNodes (ty : ClosedSetType) (lo hi : Nat) (l : Nodes) (n : Node) :
    (ofNodes ty lo hi l).Mem n ↔ ∃ x ∈ l, Dominates ty x n := by
  unfold ofNodes
  rw [mem_insertMany]
  simp only [emptyCS]
  constructor
  · rintro (hm | h)
    · exact absurd hm (mem_emptyCS ty lo hi n)
    · exact h
  · exact Or.inr

theorem mem_inter (c d : StateClosedSet) (n : Node)
    (hc : c.type = .upward_closed_set) (hd : d.type = .upward_closed_set) :
    (c.inter d).Mem n ↔ c.Mem n ∧ d.Mem n := by
  unfold inter
  rw [mem_insertMany]
  simp only [emptyCS]
  constructor
  · rintro (hm | ⟨x, hx, hdom⟩)
    · exact absurd hm (mem_emptyCS _ _ _ n)
    · simp only [List.mem_flatMap, List.mem_map] at hx
      obtain ⟨a, ha, b, hb, rfl⟩ := hx
      rw [hc] at hdom
      simp only [hc, nodeOp, Dominates, Finset.union_subset_iff] at hdom
      exact ⟨⟨a, ha, by rw [hc]; exact hdom.1⟩, ⟨b, hb, by rw [hd]; exact hdom.2⟩⟩
  · rintro ⟨⟨a, ha, hda⟩, ⟨b, hb, hdb⟩⟩
    refine Or.inr ⟨nodeOp c.type a b, ?_, ?_⟩
    · simp only [List.mem_flatMap, List.mem_map]
      exact ⟨a, ha, b, hb, rfl⟩
    · rw [hc] at hda ⊢
      rw [hd] at hdb
      simp only [nodeOp, Dominates, Finset.union_subset_iff] at *
      exact ⟨hda, hdb⟩

end StateClosedSet

theorem le_finsetUB (n : Finset Nat) : ∀ a ∈ n, a ≤ finsetUB n := by
  classical
  induction n using Finset.induction_on with
  | empty => intro a ha; simp at ha
  | @insert x s hx ih =>
    intro a ha
    have hfold : finsetUB (insert x s) = max x (finsetUB s) := by
      unfold finsetUB
      rw [Finset.fold_insert hx]
      rfl
    rcases Finset.mem_insert.mp ha with rfl | ha
    · rw [hfold]; exact le_max_left _ _
    · rw [hfold]; exact le_trans (ih a ha) (le_max_right _ _)

theorem mem_nodeList (n : Node) (a : Nat) : a ∈ nodeList n ↔ a ∈ n := by
  unfold nodeList
  rw [List.mem_filter]
  constructor
  · rintro ⟨-, h⟩
    exact of_decide_eq_true h
  · intro h
    refine ⟨List.mem_range.mpr ?_, decide_eq_true h⟩
    exact Nat.lt_succ_of_le (le_finsetUB n a h)

theorem nodeList_nil_iff (n : Node) : nodeList n = [] ↔ n = ∅ := by
  constructor
  · intro h
    ext a
    simp only [Finset.not_mem_empty, iff_false]
    intro ha
    have hmem := (mem_nodeList n a).mpr ha
    rw [h] at hmem
    exact absurd hmem (List.not_mem_nil a)
  · rintro rfl
    rfl

theorem postState_type (afa : Afa) (state symb : Nat) :
    (afa.postState state symb).type = .upward_closed_set := by
  unfold Afa.postState
  simp only []
  split
  · rfl
  · exact StateClosedSet.type_ofNodes _ _ _ _

theorem mem_of_type_eq {c : StateClosedSet} {ty : ClosedSetType} (h : c.type = ty)
    (n : Node) : c.Mem n ↔ ∃ a ∈ c.antichain, Dominates ty a n := by
  unfold StateClosedSet.Mem
  rw [h]

theorem mem_foldl_inter_post (afa : Afa) (symb : Nat) (l : List Nat)
    (acc : StateClosedSet) (hacc : acc.type = .upward_closed_set) (n : Node) :
    ((l.foldl (fun a s => a.inter (afa.postState s symb)) acc).Mem n)
      ↔ acc.Mem n ∧ ∀ s ∈ l, (afa.postState s symb).Mem n := by
  induction l generalizing acc with
  | nil => simp
  | cons x xs ih =>
    have hstep : (x :: xs).foldl (fun a s => a.inter (afa.postState s symb)) acc
        = xs.foldl (fun a s => a.inter (afa.postState s symb))
            (acc.inter (afa.postState x symb)) := rfl
    rw [hstep, ih _ (by rw [StateClosedSet.type_inter]; exact hacc),
      StateClosedSet.mem_inter _ _ _ hacc (postState_type afa x symb)]
    constructor
    · rintro ⟨⟨hm, hx⟩, hxs⟩
      refine ⟨hm, ?_⟩
      intro s hs
      rcases List.mem_cons.mp hs with rfl | hs
      · exact hx
      · exact hxs s hs
    · rintro ⟨hm, hall⟩
      exact ⟨⟨hm, hall x (List.mem_cons_self x xs)⟩,
        fun s hs => hall s (List.mem_cons_of_mem x hs)⟩

/-- C6: for a node whose states are all in bounds, the post of the node
under a symbol is the intersection over the node's states of the per-state
posts, and the post of the empty node is the upward closed set whose
antichain is the single empty node. -/
theorem claim6_postNode_is_intersection (afa : Afa) (symb : Nat) (node : Node)
    (h : ∀ s ∈ node, s < afa.stateCount) :
    (∀ n : Node, (afa.postNode node symb).Mem n
        ↔ ∀ s ∈ node, (afa.postState s symb).Mem n)
    ∧ (node = ∅ → (afa.postNode node symb).antichain = [∅]) := by
  constructor
  · intro n
    unfold Afa.postNode
    cases hnl : nodeList node with
    | nil =>
      have hempty : node = ∅ := (nodeList_nil_iff node).mp hnl
      subst hempty
      rw [StateClosedSet.mem_insertNode]
      simp only [emptyCS]
      constructor
      · intro _ s hs
        exact absurd hs (Finset.not_mem_empty s)
      · intro _
        refine Or.inr ?_
        show Dominates ClosedSetType.upward_closed_set ∅ n
        exact Finset.empty_subset n
    | cons s rest =>
      have hbase : ((emptyCS ClosedSetType.upward_closed_set 0
            (afa.transRelation.length - 1)).insertMany
            (afa.postState s symb).antichain).Mem n
          ↔ (afa.postState s symb).Mem n := by
        rw [StateClosedSet.mem_insertMany]
        constructor
        · rintro (hm | hm)
          · exact absurd hm (StateClosedSet.mem_emptyCS _ _ _ n)
          · exact (mem_of_type_eq (postState_type afa s symb) n).mpr hm
        · intro hm
          exact Or.inr ((mem_of_type_eq (postState_type afa s symb) n).mp hm)
      rw [mem_foldl_inter_post afa symb rest _
        (by rw [StateClosedSet.type_insertMany]; rfl) n, hbase]
      have hmem : ∀ s2, s2 ∈ node ↔ s2 ∈ s :: rest := by
        intro s2
        rw [← hnl, mem_nodeList]
      constructor
      · rintro ⟨hs, hrest⟩ s2 hs2
        rcases List.mem_cons.mp ((hmem s2).mp hs2) with rfl | hs2
        · exact hs
        · exact hrest s2 hs2
      · intro hall
        exact ⟨hall s ((hmem s).mpr (List.mem_cons_self s rest)),
          fun s2 hs2 => hall s2 ((hmem s2).mpr (List.mem_cons_of_mem s hs2))⟩
  · rintro rfl
    rfl

/-- C6 witness: the intersection characterisation instantiated at the
singleton node {0} of the one-state automaton `afaC2`. -/
theorem claim6_witness :
    (∀ n : Node, (afaC2.postNode {0} 0).Mem n
        ↔ ∀ s ∈ ({0} : Finset Nat), (afaC2.postState s 0).Mem n)
    ∧ (({0} : Finset Nat) = ∅ → (afaC2.postNode {0} 0).antichain = [∅]) :=
  claim6_postNode_is_intersection afaC2 0 {0} (by decide)

theorem getD_set_self {α : Type} (l : List α) (i : Nat) (x d : α) (h : i < l.length) :
    (l.set i x).getD i d = x := by
  induction l generalizing i with
  | nil => exact absurd h (by simp)
  | cons y ys ih =>
    cases i with
    | zero => rfl
    | succ j => exact ih j (Nat.lt_of_succ_lt_succ h)

theorem find?_append_of_none {α : Type} (l1 l2 : List α) (p : α → Bool)
    (h : l1.find? p = none) : (l1 ++ l2).find? p = l2.find? p := by
  induction l1 with
  | nil => rfl
  | cons x xs ih =>
    cases hx : p x with
    | true =>
      rw [List.find?_cons_of_pos _ hx] at h
      exact absurd h (by simp)
    | false =>
      have hx2 : ¬ p x = true := by simp [hx]
      rw [List.find?_cons_of_neg _ hx2] at h
      rw [List.cons_append, List.find?_cons_of_neg _ hx2]
      exact ih h

/-- C1: the four antichain emptiness tests do not agree.  The automaton
`exAfa1` is built from `exAfa0` through the public interface (`add_trans`
followed by `add_inverse_trans` for the transitions (0,a,{{0}}) and
(1,a,{{0}})); on it both forward tests report non-empty while both
backward tests report empty, because `add_inverse_trans` lost the second
registration. -/
theorem claim1_emptiness_tests_disagree :
    (Afa.add_trans exAfa0 ⟨0, 0, [{0}]⟩).bind (fun a => Afa.add_trans a ⟨1, 0, [{0}]⟩)
      = some exAfaMid
    ∧ Afa.add_inverse_trans (Afa.add_inverse_trans exAfaMid ⟨0, 0, [{0}]⟩) ⟨1, 0, [{0}]⟩
      = exAfa1
    ∧ antichain_concrete_forward_emptiness_test_old 5 exAfa1 = some false
    ∧ antichain_concrete_forward_emptiness_test_new 5 exAfa1 = some false
    ∧ antichain_concrete_backward_emptiness_test_old 5 exAfa1 = some true
    ∧ antichain_concrete_backward_emptiness_test_new 5 exAfa1 = some true := by
  decide

/-- C2: when an entry for (src, symb) already exists, `add_trans` leaves
the automaton unchanged (the closed-set update is applied to a by-value
copy), so the subsequent `perform_trans` result is the old stored value
{{0,1}} whose upward closure does not contain the added node {0}. -/
theorem claim2_add_trans_round_trip_fails :
    Afa.add_trans afaC2 ⟨0, 0, [{0}]⟩ = some afaC2
    ∧ Afa.perform_trans afaC2 0 0 = some [{0, 1}]
    ∧ (Afa.perform_trans_raw afaC2 0 0).any
        (fun b => decide (b ⊆ ({0} : Finset Nat))) = false := by
  decide

/-- C3: when the inverse bucket at min(A) already holds an inverse result
with sharing_list = A, `add_inverse_trans` leaves the automaton unchanged
(the insertion of src goes into a by-value copy), so the subsequent
`perform_inverse_trans` still yields result_nodes = {0} without src = 1. -/
theorem claim3_add_inverse_trans_drops_src :
    Afa.add_inverse_trans afaC3 ⟨1, 0, [{0}]⟩ = afaC3
    ∧ Afa.perform_inverse_trans_raw (Afa.add_inverse_trans afaC3 ⟨1, 0, [{0}]⟩) 0 0
        = [⟨{0}, {0}⟩]
    ∧ decide ((1 : Nat) ∈ (InverseResults.mk {0} {0}).result_nodes) = false := by
  decide

/-- C7 counterexample: on an AFA whose (0, a) row starts with an
empty-destination entry (reachable through `add_trans` with an empty
`dst`), adding (0, a, {{0}}) twice appends two entries while adding it
once appends one, so the two results differ. -/
theorem claim7_counterexample_empty_entry :
    Afa.add_trans afaC7 ⟨0, 0, [{0}]⟩ = some afaC7once
    ∧ (Afa.add_trans afaC7 ⟨0, 0, [{0}]⟩).bind (fun a => Afa.add_trans a ⟨0, 0, [{0}]⟩)
        = some afaC7twice
    ∧ decide (afaC7twice = afaC7once) = false := by
  decide

/-- C7 (amended): if the first stored entry for (src, symb), when present,
has a non-empty destination, then adding (src, symb, {A}) twice yields the
same automaton as adding it once. -/
theorem claim7_add_trans_idempotent (afa : Afa) (src symb : Nat) (A : Node)
    (hsrc : src < afa.transRelation.length)
    (hne : ((afa.transRelation.getD src []).find? (fun t => t.symb == symb)).all
      (fun t => !t.dst.isEmpty) = true) :
    (Afa.add_trans afa ⟨src, symb, [A]⟩).bind (fun a => Afa.add_trans a ⟨src, symb, [A]⟩)
      = Afa.add_trans afa ⟨src, symb, [A]⟩ := by
  cases hf : (afa.transRelation.getD src []).find? (fun t => t.symb == symb) with
  | some t =>
    have hdst : t.dst.isEmpty = false := by
      rw [hf] at hne
      simpa using hne
    have hperf : Afa.perform_trans afa src symb = some t.dst := by
      unfold Afa.perform_trans Afa.perform_trans_raw
      rw [if_pos hsrc, hf]
    have honce : Afa.add_trans afa ⟨src, symb, [A]⟩ = some afa := by
      unfold Afa.add_trans
      rw [hperf]
      simp [hdst]
    rw [honce]
    exact honce
  | none =>
    have hperf : Afa.perform_trans afa src symb = some [] := by
      unfold Afa.perform_trans Afa.perform_trans_raw
      rw [if_pos hsrc, hf]
    have honce : Afa.add_trans afa ⟨src, symb, [A]⟩
        = some (Afa.pushTrans afa ⟨src, symb, [A]⟩) := by
      unfold Afa.add_trans
      rw [hperf]
      simp
    have main : Afa.add_trans (Afa.pushTrans afa ⟨src, symb, [A]⟩) ⟨src, symb, [A]⟩
        = some (Afa.pushTrans afa ⟨src, symb, [A]⟩) := by
      have hlen : src < (Afa.pushTrans afa ⟨src, symb, [A]⟩).transRelation.length := by
        unfold Afa.pushTrans
        simpa using hsrc
      have hrow : (Afa.pushTrans afa ⟨src, symb, [A]⟩).transRelation.getD src [] =
          (afa.transRelation.getD src []) ++ [⟨src, symb, [A]⟩] := by
        unfold Afa.pushTrans
        exact getD_set_self _ src _ _ hsrc
      have hfind : ((Afa.pushTrans afa ⟨src, symb, [A]⟩).transRelation.getD src []).find?
            (fun t => t.symb == symb)
          = some ⟨src, symb, [A]⟩ := by
        rw [hrow, find?_append_of_none _ _ _ hf]
        simp
      have hperf2 : Afa.perform_trans (Afa.pushTrans afa ⟨src, symb, [A]⟩) src symb
          = some [A] := by
        unfold Afa.perform_trans Afa.perform_trans_raw
        rw [if_pos hlen, hfind]
      unfold Afa.add_trans
      rw [hperf2]
      simp
    rw [honce]
    exact main

/-- C7 witness: the amended idempotence instantiated on the one-state AFA
with no transitions. -/
theorem claim7_witness :
    (Afa.add_trans afa8 ⟨0, 0, [{0}]⟩).bind (fun a => Afa.add_trans a ⟨0, 0, [{0}]⟩)
      = Afa.add_trans afa8 ⟨0, 0, [{0}]⟩ :=
  claim7_add_trans_idempotent afa8 0 0 {0} (by decide) (by decide)

/-- C8: `perform_trans` guards its lookup with the bounds assert (failed
assert modelled as `none`) and succeeds on every in-bounds state, while
the inverse-relation lookup used by `pre` performs no such precondition
check: at the out-of-bounds state 5 of a one-state AFA it silently yields
the empty result instead of aborting. -/
theorem claim8_bounds_check_asymmetry :
    Afa.perform_trans afa8 5 0 = none
    ∧ Afa.perform_trans afa8 0 0 = some []
    ∧ Afa.perform_inverse_trans_raw afa8 5 0 = [] := by
  decide

/-- C10: `has_trans` succeeds exactly when the stored destination for
(src, symb) is non-empty and every stored node occurs in the queried
`dst`; when no entry exists for the pair it reports `false`. -/
theorem claim10_has_trans_subset_test (afa : Afa) (t : Trans)
    (h : t.src < afa.transRelation.length) :
    (Afa.has_trans afa t = some true
      ↔ (Afa.perform_trans_raw afa t.src t.symb).isEmpty = false
        ∧ ∀ a ∈ Afa.perform_trans_raw afa t.src t.symb, a ∈ t.dst)
    ∧ ((afa.transRelation.getD t.src []).find? (fun tr => tr.symb == t.symb) = none
        → Afa.has_trans afa t = some false) := by
  have hperf : Afa.perform_trans afa t.src t.symb
      = some (Afa.perform_trans_raw afa t.src t.symb) := by
    unfold Afa.perform_trans
    rw [if_pos h]
  constructor
  · unfold Afa.has_trans
    rw [hperf, Option.map_some']
    rw [Option.some_inj]
    rw [Bool.and_eq_true, Bool.not_eq_true', List.all_eq_true]
    constructor
    · rintro ⟨h1, h2⟩
      exact ⟨h1, fun a ha => of_decide_eq_true (h2 a ha)⟩
    · rintro ⟨h1, h2⟩
      exact ⟨h1, fun a ha => decide_eq_true (h2 a ha)⟩
  · intro hnone
    unfold Afa.has_trans
    rw [hperf, Option.map_some']
    have hraw : Afa.perform_trans_raw afa t.src t.symb = [] := by
      unfold Afa.perform_trans_raw
      rw [hnone]
    rw [hraw]
    rfl

/-- C10 witness: `has_trans` instantiated on the stored transition of
`afaC2` queried with a superset destination. -/
theorem claim10_witness :
    (Afa.has_trans afaC2 ⟨0, 0, [{0, 1}, {2}]⟩ = some true
      ↔ (Afa.perform_trans_raw afaC2 0 0).isEmpty = false
        ∧ ∀ a ∈ Afa.perform_trans_raw afaC2 0 0, a ∈ [({0, 1} : Finset Nat), {2}])
    ∧ ((afaC2.transRelation.getD 0 []).find? (fun tr => tr.symb == 0) = none
        → Afa.has_trans afaC2 ⟨0, 0, [{0, 1}, {2}]⟩ = some false) :=
  claim10_has_trans_subset_test afaC2 ⟨0, 0, [{0, 1}, {2}]⟩ (by decide)

theorem nameAll_error_imp (namer : Nat → Option String) (l : List Nat) :
    ∀ e, nameAll namer l = .error e → ∃ s ∈ l, namer s = none := by
  induction l with
  | nil => intro e h; exact absurd h (by simp [nameAll])
  | cons x xs ih =>
    intro e h
    cases hx : namer x with
    | none => exact ⟨x, List.mem_cons_self x xs, hx⟩
    | some n =>
      unfold nameAll at h
      rw [hx] at h
      cases hxs : nameAll namer xs with
      | ok ns => rw [hxs] at h; exact absurd h (by simp)
      | error e2 =>
        obtain ⟨s, hs, hnone⟩ := ih e2 hxs
        exact ⟨s, List.mem_cons_of_mem x hs, hnone⟩

theorem nameAll_ok_imp (namer : Nat → Option String) (l : List Nat) (ns : List String)
    (h : nameAll namer l = .ok ns) : ∀ s ∈ l, (namer s).isSome = true := by
  induction l generalizing ns with
  | nil => intro s hs; exact absurd hs (List.not_mem_nil s)
  | cons x xs ih =>
    intro s hs
    unfold nameAll at h
    cases hx : namer x with
    | none => rw [hx] at h; exact absurd h (by simp)
    | some n =>
      rw [hx] at h
      cases hxs : nameAll namer xs with
      | error e => rw [hxs] at h; exact absurd h (by simp)
      | ok ns2 =>
        rcases List.mem_cons.mp hs with rfl | hs
        · rw [hx]; rfl
        · exact ih ns2 hxs s hs

/-- C9 counterexample: `exAfaS` owns one transition whose symbol 7 has no
name under the provided empty symbol map, yet `serialize` succeeds and
emits an empty body: the call neither emits the transition nor fails with
a translation error, contradicting the claim. -/
theorem claim9_counterexample_transitions_not_emitted :
    serialize exAfaS (some []) none
      = Except.ok ⟨"AFA", [("Initial", ["q0"]), ("Final", [])], []⟩
    ∧ Afa.trans_size exAfaS = 1 := by
  exact ⟨rfl, rfl⟩

/-- C9 (amended): `serialize` produces a section with the AFA type tag, the
Initial and Final state-name lists and an empty body (transitions are not
emitted), and it fails iff some initial or final state has no name under
the provided state map; symbol names are never consulted. -/
theorem claim9_serialize_amended (aut : Afa)
    (symbol_map state_map : Option (List (Nat × String))) :
    (∀ ps, serialize aut symbol_map state_map = .ok ps →
      ps.type = TYPE_AFA ∧ ps.body = []
      ∧ (∃ inits fins,
          nameAll (stateNamer state_map) (nodeList aut.initialstates) = .ok inits
          ∧ nameAll (stateNamer state_map) (nodeList aut.finalstates) = .ok fins
          ∧ ps.dict = [("Initial", inits), ("Final", fins)]))
    ∧ ((∃ e, serialize aut symbol_map state_map = .error e)
        ↔ ∃ s, (s ∈ aut.initialstates ∨ s ∈ aut.finalstates)
            ∧ stateNamer state_map s = none) := by
  constructor
  · intro ps hps
    unfold serialize at hps
    cases h1 : nameAll (stateNamer state_map) (nodeList aut.initialstates) with
    | error e => rw [h1] at hps; exact absurd hps (by simp)
    | ok inits =>
      rw [h1] at hps
      cases h2 : nameAll (stateNamer state_map) (nodeList aut.finalstates) with
      | error e => rw [h2] at hps; exact absurd hps (by simp)
      | ok fins =>
        rw [h2] at hps
        simp only [Except.ok.injEq] at hps
        subst hps
        exact ⟨rfl, rfl, inits, fins, rfl, rfl, rfl⟩
  · constructor
    · rintro ⟨e, he⟩
      unfold serialize at he
      cases h1 : nameAll (stateNamer state_map) (nodeList aut.initialstates) with
      | error e1 =>
        obtain ⟨s, hs, hnone⟩ := nameAll_error_imp _ _ _ h1
        exact ⟨s, Or.inl ((mem_nodeList _ s).mp hs), hnone⟩
      | ok inits =>
        rw [h1] at he
        cases h2 : nameAll (stateNamer state_map) (nodeList aut.finalstates) with
        | error e2 =>
          obtain ⟨s, hs, hnone⟩ := nameAll_error_imp _ _ _ h2
          exact ⟨s, Or.inr ((mem_nodeList _ s).mp hs), hnone⟩
        | ok fins => rw [h2] at he; exact absurd he (by simp)
    · rintro ⟨s, hmem, hnone⟩
      cases h1 : nameAll (stateNamer state_map) (nodeList aut.initialstates) with
      | error e1 =>
        refine ⟨e1, ?_⟩
        unfold serialize
        rw [h1]
      | ok inits =>
        cases h2 : nameAll (stateNamer state_map) (nodeList aut.finalstates) with
        | error e2 =>
          refine ⟨e2, ?_⟩
          unfold serialize
          rw [h1, h2]
        | ok fins =>
          exfalso
          rcases hmem with hmem | hmem
          · have := nameAll_ok_imp _ _ _ h1 s ((mem_nodeList _ s).mpr hmem)
            rw [hnone] at this
            exact absurd this (by simp)
          · have := nameAll_ok_imp _ _ _ h2 s ((mem_nodeList _ s).mpr hmem)
            rw [hnone] at this
            exact absurd this (by simp)

theorem mapLookup_append_left {m : List ((Nat × Nat) × Nat)} (l : List ((Nat × Nat) × Nat))
    {k : Nat × Nat} {r : Nat} (h : mapLookup m k = some r) :
    mapLookup (m ++ l) k = some r := by
  unfold mapLookup at h ⊢
  rw [List.find?_append]
  cases hf : m.find? (fun e => decide (e.1 = k)) with
  | none => rw [hf] at h; exact absurd h (by simp)
  | some e =>
    rw [hf] at h
    simpa [Option.or] using h

theorem mapLookup_append_fresh (m : List ((Nat × Nat) × Nat)) (k : Nat × Nat) (v : Nat)
    (h : mapLookup m k = none) : mapLookup (m ++ [(k, v)]) k = some v := by
  unfold mapLookup at h ⊢
  rw [List.find?_append]
  cases hf : m.find? (fun e => decide (e.1 = k)) with
  | some e => rw [hf] at h; exact absurd h (by simp)
  | none => simp [Option.or, List.find?]

theorem mapLookup_append_elim (m : List ((Nat × Nat) × Nat)) (k0 k : Nat × Nat) (v r : Nat)
    (h : mapLookup (m ++ [(k, v)]) k0 = some r) :
    mapLookup m k0 = some r ∨ (k0 = k ∧ r = v) := by
  unfold mapLookup at h ⊢
  rw [List.find?_append] at h
  cases hf : m.find? (fun e => decide (e.1 = k0)) with
  | some e =>
    rw [hf] at h
    left
    simpa [Option.or] using h
  | none =>
    rw [hf] at h
    right
    by_cases hk : (k : Nat × Nat) = k0
    · subst hk
      simp [Option.or, List.find?] at h
      exact ⟨rfl, h.symm⟩
    · have : ((k, v) : (Nat × Nat) × Nat).1 = k0 ↔ False := by
        simp
        exact fun hc => hk hc
      simp [Option.or, List.find?, this] at h

theorem allocProductState_map (lhs rhs : Nfa) (cfg : ProdCfg) (p q : Nat) :
    (allocProductState lhs rhs cfg p q).product_map
      = cfg.product_map ++ [((p, q), cfg.product.transition_relation.length)] := rfl

theorem allocProductState_tr (lhs rhs : Nfa) (cfg : ProdCfg) (p q : Nat) :
    (allocProductState lhs rhs cfg p q).product.transition_relation
      = cfg.product.transition_relation ++ [[]] := rfl

theorem allocProductState_fin (lhs rhs : Nfa) (cfg : ProdCfg) (p q : Nat) :
    (allocProductState lhs rhs cfg p q).product.final_states
      = (if lhs.has_final p && rhs.has_final q then
          cfg.product.final_states ++ [cfg.product.transition_relation.length]
        else cfg.product.final_states) := rfl

theorem allocProductState_pending (lhs rhs : Nfa) (cfg : ProdCfg) (p q : Nat) :
    (allocProductState lhs rhs cfg p q).pairs_to_process
      = cfg.pairs_to_process ++ [(p, q)] := rfl

theorem inv4_alloc (lhs rhs : Nfa) (cfg : ProdCfg) (p q : Nat)
    (h : Inv4 lhs rhs cfg) :
    Inv4 lhs rhs (allocProductState lhs rhs cfg p q) := by
  obtain ⟨h1, h2, h3⟩ := h
  refine ⟨?_, ?_, ?_⟩
  · intro e he
    rw [allocProductState_map] at he
    rw [allocProductState_tr, List.length_append]
    rcases List.mem_append.mp he with he | he
    · exact Nat.lt_of_lt_of_le (h1 e he) (Nat.le_add_right _ _)
    · rcases List.mem_singleton.mp he with rfl
      simp
  · intro r hr
    rw [allocProductState_fin] at hr
    rw [allocProductState_tr, List.length_append]
    by_cases hfin : (lhs.has_final p && rhs.has_final q) = true
    · rw [if_pos hfin] at hr
      rcases List.mem_append.mp hr with hr | hr
      · exact Nat.lt_of_lt_of_le (h2 r hr) (Nat.le_add_right _ _)
      · rcases List.mem_singleton.mp hr with rfl
        simp
    · rw [if_neg hfin] at hr
      exact Nat.lt_of_lt_of_le (h2 r hr) (Nat.le_add_right _ _)
  · intro p0 q0 r0 hl
    rw [allocProductState_map] at hl
    rw [allocProductState_fin]
    rcases mapLookup_append_elim _ _ _ _ _ hl with hl | ⟨hk, hv⟩
    · have hlt : r0 < cfg.product.transition_relation.length := by
        unfold mapLookup at hl
        cases hf : cfg.product_map.find? (fun e => decide (e.1 = (p0, q0))) with
        | none => rw [hf] at hl; exact absurd hl (by simp)
        | some e =>
          rw [hf] at hl
          have he : e ∈ cfg.product_map := List.mem_of_find?_eq_some hf
          have : e.2 = r0 := by simpa using hl
          rw [← this]
          exact h1 e he
      have hne : r0 ≠ cfg.product.transition_relation.length := Nat.ne_of_lt hlt
      by_cases hfin : (lhs.has_final p && rhs.has_final q) = true
      · rw [if_pos hfin]
        rw [← h3 p0 q0 r0 hl]
        constructor
        · intro hmem
          rcases List.mem_append.mp hmem with hmem | hmem
          · exact hmem
          · exact absurd (List.mem_singleton.mp hmem) hne
        · intro hmem
          exact List.mem_append.mpr (Or.inl hmem)
      · rw [if_neg hfin]
        exact h3 p0 q0 r0 hl
    · rcases Prod.mk.injEq .. ▸ hk with ⟨rfl, rfl⟩
      subst hv
      have hnotfin : cfg.product.transition_relation.length ∉ cfg.product.final_states := by
        intro hc
        exact absurd (h2 _ hc) (Nat.lt_irrefl _)
      by_cases hfin : (lhs.has_final p0 && rhs.has_final q0) = true
      · rw [if_pos hfin]
        rw [Bool.and_eq_true] at hfin
        constructor
        · intro _; exact hfin
        · intro _
          exact List.mem_append.mpr (Or.inr (List.mem_singleton.mpr rfl))
      · rw [if_neg hfin]
        rw [Bool.and_eq_true] at hfin
        constructor
        · intro hc; exact absurd hc hnotfin
        · intro hc; exact absurd hc hfin

theorem inv4_create (lhs rhs : Nfa) (cfg : ProdCfg) (p q : Nat) (mv : Move)
    (h : Inv4 lhs rhs cfg) :
    Inv4 lhs rhs (create_product_state_and_trans cfg lhs rhs p q mv).1 := by
  unfold create_product_state_and_trans
  cases hl : mapLookup cfg.product_map (p, q) with
  | some r => exact h
  | none => exact inv4_alloc lhs rhs cfg p q h

theorem inv4_apt (lhs rhs : Nfa) (cfg : ProdCfg) (pair : Nat × Nat) (mv : Move)
    (h : Inv4 lhs rhs cfg) : Inv4 lhs rhs (add_product_transition cfg pair mv) := by
  unfold add_product_transition
  by_cases hmv : mv.states_to = ∅
  · rw [if_pos hmv]
    exact h
  · rw [if_neg hmv]
    obtain ⟨h1, h2, h3⟩ := h
    refine ⟨?_, ?_, ?_⟩
    · intro e he
      simpa [Nfa.setRow, List.length_set] using h1 e he
    · intro r hr
      simpa [Nfa.setRow, List.length_set] using h2 r hr
    · exact h3

theorem inv4_foldl {β : Type} (lhs rhs : Nfa) (f : ProdCfg → β → ProdCfg)
    (hf : ∀ c b, Inv4 lhs rhs c → Inv4 lhs rhs (f c b)) :
    ∀ (l : List β) (c : ProdCfg), Inv4 lhs rhs c → Inv4 lhs rhs (l.foldl f c) := by
  intro l
  induction l with
  | nil => intro c h; exact h
  | cons x xs ih => intro c h; exact ih _ (hf c x h)

theorem inv4_createAll (lhs rhs : Nfa) (targets : List (Nat × Nat))
    (start : ProdCfg × Move) (h : Inv4 lhs rhs start.1) :
    Inv4 lhs rhs (createAll lhs rhs targets start).1 := by
  induction targets generalizing start with
  | nil => exact h
  | cons x xs ih =>
    exact ih (create_product_state_and_trans start.1 lhs rhs x.1 x.2 start.2)
      (inv4_create lhs rhs start.1 x.1 x.2 start.2 h)

theorem inv4_classicRound (lhs rhs : Nfa) (pair : Nat × Nat) (c : ProdCfg)
    (mm : Move × Move) (h : Inv4 lhs rhs c) :
    Inv4 lhs rhs (classicRound lhs rhs pair c mm) :=
  inv4_apt lhs rhs _ pair _ (inv4_createAll lhs rhs _ _ h)

theorem inv4_classicStep (lhs rhs : Nfa) (cfg : ProdCfg) (pair : Nat × Nat)
    (h : Inv4 lhs rhs cfg) : Inv4 lhs rhs (classicStep lhs rhs cfg pair) :=
  inv4_foldl lhs rhs _ (fun c mm => inv4_classicRound lhs rhs pair c mm) _ cfg h

theorem epsStepL_none (lhs rhs : Nfa) (cfg : ProdCfg) (pair : Nat × Nat)
    (h : (lhs.transition_relation.getD pair.1 []).getLast? = none) :
    epsStepL lhs rhs cfg pair = cfg := by
  unfold epsStepL
  rw [h]

theorem epsStepL_some (lhs rhs : Nfa) (cfg : ProdCfg) (pair : Nat × Nat)
    (lastMove : Move)
    (h : (lhs.transition_relation.getD pair.1 []).getLast? = some lastMove) :
    epsStepL lhs rhs cfg pair =
      (if lastMove.symbol == EPSILON then
        add_product_transition
          (createAll lhs rhs ((nodeList lastMove.states_to).map (fun a => (a, pair.2)))
            (cfg, ⟨EPSILON, ∅⟩)).1 pair
          (createAll lhs rhs ((nodeList lastMove.states_to).map (fun a => (a, pair.2)))
            (cfg, ⟨EPSILON, ∅⟩)).2
      else cfg) := by
  unfold epsStepL
  rw [h]

theorem epsStepR_none (lhs rhs : Nfa) (cfg : ProdCfg) (pair : Nat × Nat)
    (h : (rhs.transition_relation.getD pair.2 []).getLast? = none) :
    epsStepR lhs rhs cfg pair = cfg := by
  unfold epsStepR
  rw [h]

theorem epsStepR_some (lhs rhs : Nfa) (cfg : ProdCfg) (pair : Nat × Nat)
    (lastMove : Move)
    (h : (rhs.transition_relation.getD pair.2 []).getLast? = some lastMove) :
    epsStepR lhs rhs cfg pair =
      (if lastMove.symbol == EPSILON then
        add_product_transition
          (createAll lhs rhs ((nodeList lastMove.states_to).map (fun b => (pair.1, b)))
            (cfg, ⟨EPSILON, ∅⟩)).1 pair
          (createAll lhs rhs ((nodeList lastMove.states_to).map (fun b => (pair.1, b)))
            (cfg, ⟨EPSILON, ∅⟩)).2
      else cfg) := by
  unfold epsStepR
  rw [h]

theorem inv4_epsStepL (lhs rhs : Nfa) (cfg : ProdCfg) (pair : Nat × Nat)
    (h : Inv4 lhs rhs cfg) : Inv4 lhs rhs (epsStepL lhs rhs cfg pair) := by
  cases hlast : (lhs.transition_relation.getD pair.1 []).getLast? with
  | none =>
    rw [epsStepL_none lhs rhs cfg pair hlast]
    exact h
  | some lastMove =>
    rw [epsStepL_some lhs rhs cfg pair lastMove hlast]
    by_cases hsym : (lastMove.symbol == EPSILON) = true
    · rw [if_pos hsym]
      exact inv4_apt lhs rhs _ pair _ (inv4_createAll lhs rhs _ _ h)
    · rw [if_neg hsym]
      exact h

theorem inv4_epsStepR (lhs rhs : Nfa) (cfg : ProdCfg) (pair : Nat × Nat)
    (h : Inv4 lhs rhs cfg) : Inv4 lhs rhs (epsStepR lhs rhs cfg pair) := by
  cases hlast : (rhs.transition_relation.getD pair.2 []).getLast? with
  | none =>
    rw [epsStepR_none lhs rhs cfg pair hlast]
    exact h
  | some lastMove =>
    rw [epsStepR_some lhs rhs cfg pair lastMove hlast]
    by_cases hsym : (lastMove.symbol == EPSILON) = true
    · rw [if_pos hsym]
      exact inv4_apt lhs rhs _ pair _ (inv4_createAll lhs rhs _ _ h)
    · rw [if_neg hsym]
      exact h

theorem inv4_processPair (lhs rhs : Nfa) (eps : Bool) (cfg : ProdCfg)
    (pair : Nat × Nat) (h : Inv4 lhs rhs cfg) :
    Inv4 lhs rhs (processPair lhs rhs eps cfg pair) := by
  unfold processPair
  by_cases heps : eps = true
  · rw [if_pos heps]
    exact inv4_epsStepR lhs rhs _ pair (inv4_epsStepL lhs rhs _ pair
      (inv4_classicStep lhs rhs cfg pair h))
  · rw [if_neg heps]
    exact inv4_classicStep lhs rhs cfg pair h

theorem inv4_pop (lhs rhs : Nfa) (cfg : ProdCfg) (rest : List (Nat × Nat))
    (h : Inv4 lhs rhs cfg) : Inv4 lhs rhs ⟨cfg.product, cfg.product_map, rest⟩ := h

theorem inv4_loop (lhs rhs : Nfa) (eps : Bool) (fuel : Nat) (cfg : ProdCfg)
    (h : Inv4 lhs rhs cfg) : Inv4 lhs rhs (intersectionLoop lhs rhs eps fuel cfg) := by
  induction fuel generalizing cfg with
  | zero => exact h
  | succ n ih =>
    unfold intersectionLoop
    cases cfg.pairs_to_process with
    | nil => exact h
    | cons pair rest =>
      exact ih _ (inv4_processPair lhs rhs eps ⟨cfg.product, cfg.product_map, rest⟩ pair
        (inv4_pop lhs rhs cfg rest h))

theorem inv4_initPair (lhs rhs : Nfa) (cfg : ProdCfg) (p q : Nat)
    (h : Inv4 lhs rhs cfg) : Inv4 lhs rhs (initPair lhs rhs cfg p q) :=
  inv4_alloc lhs rhs cfg p q h

theorem inv4_init (lhs rhs : Nfa) : Inv4 lhs rhs (intersectionInit lhs rhs) := by
  unfold intersectionInit
  have hstart : Inv4 lhs rhs ⟨⟨[], [], []⟩, [], []⟩ := by
    refine ⟨?_, ?_, ?_⟩
    · intro e he; exact absurd he (List.not_mem_nil e)
    · intro r hr; exact absurd hr (List.not_mem_nil r)
    · intro p q r hl
      exact absurd hl (by simp [mapLookup])
  exact inv4_foldl lhs rhs _
    (fun c p hc => inv4_foldl lhs rhs _ (fun c2 q hc2 => inv4_initPair lhs rhs c2 p q hc2)
      rhs.initial_states c hc) lhs.initial_states _ hstart

/-- C4: every product state r that `intersection` maps from a pair (p, q)
is final in the product iff p is final in lhs and q is final in rhs; this
holds for any fuel, hence both for states allocated from initial pairs and
for states discovered during the worklist phase. -/
theorem claim4_product_finality (lhs rhs : Nfa) (eps : Bool) (fuel : Nat)
    (p q r : Nat)
    (h : mapLookup (intersection fuel lhs rhs eps).product_map (p, q) = some r) :
    r ∈ (intersection fuel lhs rhs eps).product.final_states
      ↔ (lhs.has_final p = true ∧ rhs.has_final q = true) :=
  (inv4_loop lhs rhs eps fuel _ (inv4_init lhs rhs)).2.2 p q r h

/-- C4 witness: in the product of the scenario S-1 automaton with itself,
the state mapped from (1, 1) is final, and both components are final. -/
theorem claim4_witness :
    1 ∈ (intersection 5 exNfa1 exNfa1 false).product.final_states
      ↔ (exNfa1.has_final 1 = true ∧ exNfa1.has_final 1 = true) :=
  claim4_product_finality exNfa1 exNfa1 false 5 1 1 1 (by decide)

theorem getD_set_ne {α : Type} (l : List α) (i j : Nat) (x d : α) (h : i ≠ j) :
    (l.set i x).getD j d = l.getD j d := by
  induction l generalizing i j with
  | nil => rfl
  | cons y ys ih =>
    cases i with
    | zero =>
      cases j with
      | zero => exact absurd rfl h
      | succ j2 => rfl
    | succ i2 =>
      cases j with
      | zero => rfl
      | succ j2 => exact ih i2 j2 (fun hc => h (by rw [hc]))

theorem set_of_length_le {α : Type} (l : List α) (i : Nat) (x : α)
    (h : l.length ≤ i) : l.set i x = l := by
  induction l generalizing i with
  | nil => rfl
  | cons y ys ih =>
    cases i with
    | zero => exact absurd h (by simp)
    | succ i2 => simpa using ih i2 (Nat.le_of_succ_le_succ h)

theorem getD_append_left2 {α : Type} (l l2 : List α) (i : Nat) (d : α)
    (h : i < l.length) : (l ++ l2).getD i d = l.getD i d := by
  induction l generalizing i with
  | nil => exact absurd h (by simp)
  | cons y ys ih =>
    cases i with
    | zero => rfl
    | succ i2 => exact ih i2 (Nat.lt_of_succ_lt_succ h)

theorem lt_of_mem_getD {α : Type} (l : List (List α)) (i : Nat) (m : α)
    (hm : m ∈ l.getD i []) : i < l.length := by
  by_contra hc
  have hge : l.length ≤ i := Nat.le_of_not_lt hc
  have : l.getD i [] = [] := by
    unfold List.getD
    rw [List.get?_eq_none.mpr hge]
    rfl
  rw [this] at hm
  exact absurd hm (List.not_mem_nil m)

theorem addMoveToRow_mono (row : List Move) (mv m : Move) (hm : m ∈ row) :
    ∃ m2 ∈ addMoveToRow row mv, m2.symbol = m.symbol ∧ m.states_to ⊆ m2.states_to := by
  induction row with
  | nil => exact absurd hm (List.not_mem_nil m)
  | cons y ys ih =>
    unfold addMoveToRow
    by_cases hy : (y.symbol == mv.symbol) = true
    · rw [if_pos hy]
      rcases List.mem_cons.mp hm with rfl | hm
      · exact ⟨⟨m.symbol, m.states_to ∪ mv.states_to⟩, List.mem_cons_self _ _,
          rfl, Finset.subset_union_left⟩
      · exact ⟨m, List.mem_cons_of_mem _ hm, rfl, Finset.Subset.refl _⟩
    · rw [if_neg hy]
      rcases List.mem_cons.mp hm with rfl | hm
      · exact ⟨m, List.mem_cons_self _ _, rfl, Finset.Subset.refl _⟩
      · obtain ⟨m2, hm2, hsym, hsub⟩ := ih hm
        exact ⟨m2, List.mem_cons_of_mem _ hm2, hsym, hsub⟩

theorem addMoveToRow_adds (row : List Move) (mv : Move) (x : Nat)
    (hx : x ∈ mv.states_to) :
    ∃ m2 ∈ addMoveToRow row mv, m2.symbol = mv.symbol ∧ x ∈ m2.states_to := by
  induction row with
  | nil => exact ⟨mv, List.mem_cons_self _ _, rfl, hx⟩
  | cons y ys ih =>
    unfold addMoveToRow
    by_cases hy : (y.symbol == mv.symbol) = true
    · rw [if_pos hy]
      exact ⟨⟨y.symbol, y.states_to ∪ mv.states_to⟩, List.mem_cons_self _ _,
        by simpa using hy, Finset.mem_union_right _ hx⟩
    · rw [if_neg hy]
      obtain ⟨m2, hm2, hsym, hmem⟩ := ih
      exact ⟨m2, List.mem_cons_of_mem _ hm2, hsym, hmem⟩

theorem extends_refl (cfg : ProdCfg) : Extends cfg cfg :=
  ⟨fun _ _ h => h, fun _ _ _ h => h⟩

theorem extends_trans {a b c : ProdCfg} (h1 : Extends a b) (h2 : Extends b c) :
    Extends a c :=
  ⟨fun k r h => h2.1 k r (h1.1 k r h), fun r σ r2 h => h2.2 r σ r2 (h1.2 r σ r2 h)⟩

theorem epsDoneL_mono {lhs : Nfa} {cfg cfg2 : ProdCfg} {p q : Nat}
    (hext : Extends cfg cfg2) (h : EpsDoneL lhs cfg p q) : EpsDoneL lhs cfg2 p q := by
  intro lastMove hlast hsym p2 hp2
  obtain ⟨r, r2, h1, h2, h3⟩ := h lastMove hlast hsym p2 hp2
  exact ⟨r, r2, hext.1 _ r h1, hext.1 _ r2 h2, hext.2 r EPSILON r2 h3⟩

theorem epsDoneR_mono {rhs : Nfa} {cfg cfg2 : ProdCfg} {p q : Nat}
    (hext : Extends cfg cfg2) (h : EpsDoneR rhs cfg p q) : EpsDoneR rhs cfg2 p q := by
  intro lastMove hlast hsym q2 hq2
  obtain ⟨r, r2, h1, h2, h3⟩ := h lastMove hlast hsym q2 hq2
  exact ⟨r, r2, hext.1 _ r h1, hext.1 _ r2 h2, hext.2 r EPSILON r2 h3⟩

theorem extends_alloc (lhs rhs : Nfa) (cfg : ProdCfg) (p q : Nat) :
    Extends cfg (allocProductState lhs rhs cfg p q) := by
  constructor
  · intro k r h
    rw [allocProductState_map]
    exact mapLookup_append_left _ h
  · intro r σ r2 h
    obtain ⟨m, hm, hsym, hmem⟩ := h
    have hlt : r < cfg.product.transition_relation.length :=
      lt_of_mem_getD _ r m hm
    refine ⟨m, ?_, hsym, hmem⟩
    rw [allocProductState_tr, getD_append_left2 _ _ r _ hlt]
    exact hm

theorem extends_apt (cfg : ProdCfg) (pair : Nat × Nat) (mv : Move) :
    Extends cfg (add_product_transition cfg pair mv) := by
  unfold add_product_transition
  by_cases hmv : mv.states_to = ∅
  · rw [if_pos hmv]
    exact extends_refl cfg
  · rw [if_neg hmv]
    constructor
    · intro k r h
      exact h
    · intro r0 σ r2 h
      obtain ⟨m, hm, hsym, hmem⟩ := h
      by_cases hr : (mapLookup cfg.product_map pair).getD 0 = r0
      · subst hr
        obtain ⟨m2, hm2, hsym2, hsub⟩ := addMoveToRow_mono _ mv m hm
        refine ⟨m2, ?_, by rw [hsym2, hsym], hsub hmem⟩
        have hlt : (mapLookup cfg.product_map pair).getD 0
            < cfg.product.transition_relation.length :=
          lt_of_mem_getD _ _ m hm
        show m2 ∈ (cfg.product.transition_relation.set _ _).getD _ []
        rw [getD_set_self _ _ _ _ hlt]
        exact hm2
      · refine ⟨m, ?_, hsym, hmem⟩
        show m ∈ (cfg.product.transition_relation.set _ _).getD r0 []
        rw [getD_set_ne _ _ _ _ _ hr]
        exact hm

theorem extends_create (lhs rhs : Nfa) (c : ProdCfg) (p q : Nat) (mv : Move) :
    Extends c (create_product_state_and_trans c lhs rhs p q mv).1 := by
  unfold create_product_state_and_trans
  cases hl : mapLookup c.product_map (p, q) with
  | some r => exact extends_refl c
  | none => exact extends_alloc lhs rhs c p q

theorem extends_createAll (lhs rhs : Nfa) (targets : List (Nat × Nat))
    (start : ProdCfg × Move) : Extends start.1 (createAll lhs rhs targets start).1 := by
  induction targets generalizing start with
  | nil => exact extends_refl start.1
  | cons k ks ih =>
    exact extends_trans (extends_create lhs rhs start.1 k.1 k.2 start.2)
      (ih (create_product_state_and_trans start.1 lhs rhs k.1 k.2 start.2))

theorem extends_classicRound (lhs rhs : Nfa) (pair : Nat × Nat) (c : ProdCfg)
    (mm : Move × Move) : Extends c (classicRound lhs rhs pair c mm) :=
  extends_trans (extends_createAll lhs rhs _ (c, ⟨mm.1.symbol, ∅⟩)) (extends_apt _ pair _)

theorem extends_foldl {β : Type} (f : ProdCfg → β → ProdCfg)
    (hf : ∀ c b, Extends c (f c b)) :
    ∀ (l : List β) (c : ProdCfg), Extends c (l.foldl f c) := by
  intro l
  induction l with
  | nil => intro c; exact extends_refl c
  | cons x xs ih => intro c; exact extends_trans (hf c x) (ih (f c x))

theorem extends_classicStep (lhs rhs : Nfa) (cfg : ProdCfg) (pair : Nat × Nat) :
    Extends cfg (classicStep lhs rhs cfg pair) :=
  extends_foldl _ (fun c mm => extends_classicRound lhs rhs pair c mm) _ cfg

theorem extends_epsStepL (lhs rhs : Nfa) (cfg : ProdCfg) (pair : Nat × Nat) :
    Extends cfg (epsStepL lhs rhs cfg pair) := by
  cases hlast : (lhs.transition_relation.getD pair.1 []).getLast? with
  | none => rw [epsStepL_none lhs rhs cfg pair hlast]; exact extends_refl cfg
  | some lastMove =>
    rw [epsStepL_some lhs rhs cfg pair lastMove hlast]
    by_cases hsym : (lastMove.symbol == EPSILON) = true
    · rw [if_pos hsym]
      exact extends_trans (extends_createAll lhs rhs _ (cfg, ⟨EPSILON, ∅⟩))
        (extends_apt _ pair _)
    · rw [if_neg hsym]
      exact extends_refl cfg

theorem extends_epsStepR (lhs rhs : Nfa) (cfg : ProdCfg) (pair : Nat × Nat) :
    Extends cfg (epsStepR lhs rhs cfg pair) := by
  cases hlast : (rhs.transition_relation.getD pair.2 []).getLast? with
  | none => rw [epsStepR_none lhs rhs cfg pair hlast]; exact extends_refl cfg
  | some lastMove =>
    rw [epsStepR_some lhs rhs cfg pair lastMove hlast]
    by_cases hsym : (lastMove.symbol == EPSILON) = true
    · rw [if_pos hsym]
      exact extends_trans (extends_createAll lhs rhs _ (cfg, ⟨EPSILON, ∅⟩))
        (extends_apt _ pair _)
    · rw [if_neg hsym]
      exact extends_refl cfg

theorem stepAdds_refl (cfg : ProdCfg) : StepAdds cfg cfg :=
  ⟨fun e he => Or.inl he, fun _ h => h⟩

theorem stepAdds_trans {a b c : ProdCfg} (h1 : StepAdds a b) (h2 : StepAdds b c) :
    StepAdds a c := by
  constructor
  · intro e he
    rcases h2.1 e he with he2 | he2
    · rcases h1.1 e he2 with he3 | he3
      · exact Or.inl he3
      · exact Or.inr (h2.2 _ he3)
    · exact Or.inr he2
  · intro pr hpr
    exact h2.2 pr (h1.2 pr hpr)

theorem stepAdds_alloc (lhs rhs : Nfa) (cfg : ProdCfg) (p q : Nat) :
    StepAdds cfg (allocProductState lhs rhs cfg p q) := by
  constructor
  · intro e he
    rw [allocProductState_map] at he
    rcases List.mem_append.mp he with he | he
    · exact Or.inl he
    · rcases List.mem_singleton.mp he with rfl
      refine Or.inr ?_
      rw [allocProductState_pending]
      exact List.mem_append.mpr (Or.inr (List.mem_singleton.mpr rfl))
  · intro pr hpr
    rw [allocProductState_pending]
    exact List.mem_append.mpr (Or.inl hpr)

theorem stepAdds_apt (cfg : ProdCfg) (pair : Nat × Nat) (mv : Move) :
    StepAdds cfg (add_product_transition cfg pair mv) := by
  unfold add_product_transition
  by_cases hmv : mv.states_to = ∅
  · rw [if_pos hmv]; exact stepAdds_refl cfg
  · rw [if_neg hmv]
    exact ⟨fun e he => Or.inl he, fun _ h => h⟩

theorem stepAdds_create (lhs rhs : Nfa) (c : ProdCfg) (p q : Nat) (mv : Move) :
    StepAdds c (create_product_state_and_trans c lhs rhs p q mv).1 := by
  unfold create_product_state_and_trans
  cases hl : mapLookup c.product_map (p, q) with
  | some r => exact stepAdds_refl c
  | none => exact stepAdds_alloc lhs rhs c p q

theorem stepAdds_createAll (lhs rhs : Nfa) (targets : List (Nat × Nat))
    (start : ProdCfg × Move) : StepAdds start.1 (createAll lhs rhs targets start).1 := by
  induction targets generalizing start with
  | nil => exact stepAdds_refl start.1
  | cons k ks ih =>
    exact stepAdds_trans (stepAdds_create lhs rhs start.1 k.1 k.2 start.2)
      (ih (create_product_state_and_trans start.1 lhs rhs k.1 k.2 start.2))

theorem stepAdds_foldl {β : Type} (f : ProdCfg → β → ProdCfg)
    (hf : ∀ c b, StepAdds c (f c b)) :
    ∀ (l : List β) (c : ProdCfg), StepAdds c (l.foldl f c) := by
  intro l
  induction l with
  | nil => intro c; exact stepAdds_refl c
  | cons x xs ih => intro c; exact stepAdds_trans (hf c x) (ih (f c x))

theorem stepAdds_classicRound (lhs rhs : Nfa) (pair : Nat × Nat) (c : ProdCfg)
    (mm : Move × Move) : StepAdds c (classicRound lhs rhs pair c mm) :=
  stepAdds_trans (stepAdds_createAll lhs rhs _ (c, ⟨mm.1.symbol, ∅⟩))
    (stepAdds_apt _ pair _)

theorem stepAdds_classicStep (lhs rhs : Nfa) (cfg : ProdCfg) (pair : Nat × Nat) :
    StepAdds cfg (classicStep lhs rhs cfg pair) :=
  stepAdds_foldl _ (fun c mm => stepAdds_classicRound lhs rhs pair c mm) _ cfg

theorem stepAdds_epsStepL (lhs rhs : Nfa) (cfg : ProdCfg) (pair : Nat × Nat) :
    StepAdds cfg (epsStepL lhs rhs cfg pair) := by
  cases hlast : (lhs.transition_relation.getD pair.1 []).getLast? with
  | none => rw [epsStepL_none lhs rhs cfg pair hlast]; exact stepAdds_refl cfg
  | some lastMove =>
    rw [epsStepL_some lhs rhs cfg pair lastMove hlast]
    by_cases hsym : (lastMove.symbol == EPSILON) = true
    · rw [if_pos hsym]
      exact stepAdds_trans (stepAdds_createAll lhs rhs _ (cfg, ⟨EPSILON, ∅⟩))
        (stepAdds_apt _ pair _)
    · rw [if_neg hsym]
      exact stepAdds_refl cfg

theorem stepAdds_epsStepR (lhs rhs : Nfa) (cfg : ProdCfg) (pair : Nat × Nat) :
    StepAdds cfg (epsStepR lhs rhs cfg pair) := by
  cases hlast : (rhs.transition_relation.getD pair.2 []).getLast? with
  | none => rw [epsStepR_none lhs rhs cfg pair hlast]; exact stepAdds_refl cfg
  | some lastMove =>
    rw [epsStepR_some lhs rhs cfg pair lastMove hlast]
    by_cases hsym : (lastMove.symbol == EPSILON) = true
    · rw [if_pos hsym]
      exact stepAdds_trans (stepAdds_createAll lhs rhs _ (cfg, ⟨EPSILON, ∅⟩))
        (stepAdds_apt _ pair _)
    · rw [if_neg hsym]
      exact stepAdds_refl cfg

theorem stepAdds_processPair (lhs rhs : Nfa) (eps : Bool) (cfg : ProdCfg)
    (pair : Nat × Nat) : StepAdds cfg (processPair lhs rhs eps cfg pair) := by
  unfold processPair
  by_cases heps : eps = true
  · rw [if_pos heps]
    exact stepAdds_trans (stepAdds_classicStep lhs rhs cfg pair)
      (stepAdds_trans (stepAdds_epsStepL lhs rhs _ pair) (stepAdds_epsStepR lhs rhs _ pair))
  · rw [if_neg heps]
    exact stepAdds_classicStep lhs rhs cfg pair

theorem extends_processPair (lhs rhs : Nfa) (eps : Bool) (cfg : ProdCfg)
    (pair : Nat × Nat) : Extends cfg (processPair lhs rhs eps cfg pair) := by
  unfold processPair
  by_cases heps : eps = true
  · rw [if_pos heps]
    exact extends_trans (extends_classicStep lhs rhs cfg pair)
      (extends_trans (extends_epsStepL lhs rhs _ pair) (extends_epsStepR lhs rhs _ pair))
  · rw [if_neg heps]
    exact extends_classicStep lhs rhs cfg pair

theorem mapLookup_append_isSome (m : List ((Nat × Nat) × Nat)) (k : Nat × Nat) (v : Nat) :
    ∃ r, mapLookup (m ++ [(k, v)]) k = some r := by
  cases hl : mapLookup m k with
  | some r => exact ⟨r, mapLookup_append_left _ hl⟩
  | none => exact ⟨v, mapLookup_append_fresh m k v hl⟩

theorem pm_alloc (lhs rhs : Nfa) (cfg : ProdCfg) (p q : Nat)
    (h : PendingMapped cfg) : PendingMapped (allocProductState lhs rhs cfg p q) := by
  intro pr hpr
  rw [allocProductState_pending] at hpr
  rw [allocProductState_map]
  rcases List.mem_append.mp hpr with hpr | hpr
  · obtain ⟨r, hr⟩ := h pr hpr
    exact ⟨r, mapLookup_append_left _ hr⟩
  · rcases List.mem_singleton.mp hpr with rfl
    exact mapLookup_append_isSome _ _ _

theorem pm_apt (cfg : ProdCfg) (pair : Nat × Nat) (mv : Move)
    (h : PendingMapped cfg) : PendingMapped (add_product_transition cfg pair mv) := by
  unfold add_product_transition
  by_cases hmv : mv.states_to = ∅
  · rw [if_pos hmv]; exact h
  · rw [if_neg hmv]; exact h

theorem pm_create (lhs rhs : Nfa) (c : ProdCfg) (p q : Nat) (mv : Move)
    (h : PendingMapped c) :
    PendingMapped (create_product_state_and_trans c lhs rhs p q mv).1 := by
  unfold create_product_state_and_trans
  cases hl : mapLookup c.product_map (p, q) with
  | some r => exact h
  | none => exact pm_alloc lhs rhs c p q h

theorem pm_createAll (lhs rhs : Nfa) (targets : List (Nat × Nat))
    (start : ProdCfg × Move) (h : PendingMapped start.1) :
    PendingMapped (createAll lhs rhs targets start).1 := by
  induction targets generalizing start with
  | nil => exact h
  | cons k ks ih =>
    exact ih (create_product_state_and_trans start.1 lhs rhs k.1 k.2 start.2)
      (pm_create lhs rhs start.1 k.1 k.2 start.2 h)

theorem pm_foldl {β : Type} (f : ProdCfg → β → ProdCfg)
    (hf : ∀ c b, PendingMapped c → PendingMapped (f c b)) :
    ∀ (l : List β) (c : ProdCfg), PendingMapped c → PendingMapped (l.foldl f c) := by
  intro l
  induction l with
  | nil => intro c h; exact h
  | cons x xs ih => intro c h; exact ih (f c x) (hf c x h)

theorem pm_classicStep (lhs rhs : Nfa) (cfg : ProdCfg) (pair : Nat × Nat)
    (h : PendingMapped cfg) : PendingMapped (classicStep lhs rhs cfg pair) :=
  pm_foldl _ (fun c mm hc => pm_apt _ pair _ (pm_createAll lhs rhs _ _ hc)) _ cfg h

theorem pm_epsStepL (lhs rhs : Nfa) (cfg : ProdCfg) (pair : Nat × Nat)
    (h : PendingMapped cfg) : PendingMapped (epsStepL lhs rhs cfg pair) := by
  cases hlast : (lhs.transition_relation.getD pair.1 []).getLast? with
  | none => rw [epsStepL_none lhs rhs cfg pair hlast]; exact h
  | some lastMove =>
    rw [epsStepL_some lhs rhs cfg pair lastMove hlast]
    by_cases hsym : (lastMove.symbol == EPSILON) = true
    · rw [if_pos hsym]
      exact pm_apt _ pair _ (pm_createAll lhs rhs _ _ h)
    · rw [if_neg hsym]; exact h

theorem pm_epsStepR (lhs rhs : Nfa) (cfg : ProdCfg) (pair : Nat × Nat)
    (h : PendingMapped cfg) : PendingMapped (epsStepR lhs rhs cfg pair) := by
  cases hlast : (rhs.transition_relation.getD pair.2 []).getLast? with
  | none => rw [epsStepR_none lhs rhs cfg pair hlast]; exact h
  | some lastMove =>
    rw [epsStepR_some lhs rhs cfg pair lastMove hlast]
    by_cases hsym : (lastMove.symbol == EPSILON) = true
    · rw [if_pos hsym]
      exact pm_apt _ pair _ (pm_createAll lhs rhs _ _ h)
    · rw [if_neg hsym]; exact h

theorem pm_processPair (lhs rhs : Nfa) (eps : Bool) (cfg : ProdCfg)
    (pair : Nat × Nat) (h : PendingMapped cfg) :
    PendingMapped (processPair lhs rhs eps cfg pair) := by
  unfold processPair
  by_cases heps : eps = true
  · rw [if_pos heps]
    exact pm_epsStepR lhs rhs _ pair (pm_epsStepL lhs rhs _ pair
      (pm_classicStep lhs rhs cfg pair h))
  · rw [if_neg heps]
    exact pm_classicStep lhs rhs cfg pair h

theorem pm_pop (cfg : ProdCfg) (pair : Nat × Nat) (rest : List (Nat × Nat))
    (hpend : cfg.pairs_to_process = pair :: rest) (h : PendingMapped cfg) :
    PendingMapped ⟨cfg.product, cfg.product_map, rest⟩ := by
  intro pr hpr
  exact h pr (by rw [hpend]; exact List.mem_cons_of_mem pair hpr)

theorem pm_initPair (lhs rhs : Nfa) (cfg : ProdCfg) (p q : Nat)
    (h : PendingMapped cfg) : PendingMapped (initPair lhs rhs cfg p q) :=
  pm_alloc lhs rhs cfg p q h

theorem pm_init (lhs rhs : Nfa) : PendingMapped (intersectionInit lhs rhs) := by
  unfold intersectionInit
  have hstart : PendingMapped ⟨⟨[], [], []⟩, [], []⟩ := by
    intro pr hpr
    exact absurd hpr (List.not_mem_nil pr)
  exact pm_foldl _
    (fun c p hc => pm_foldl _ (fun c2 q hc2 => pm_initPair lhs rhs c2 p q hc2)
      rhs.initial_states c hc) lhs.initial_states _ hstart

theorem create_post (lhs rhs : Nfa) (c : ProdCfg) (k : Nat × Nat) (mv : Move) :
    (create_product_state_and_trans c lhs rhs k.1 k.2 mv).2.symbol = mv.symbol
    ∧ (∀ x ∈ mv.states_to,
        x ∈ (create_product_state_and_trans c lhs rhs k.1 k.2 mv).2.states_to)
    ∧ (∃ rk, mapLookup (create_product_state_and_trans c lhs rhs k.1 k.2 mv).1.product_map k
          = some rk
        ∧ rk ∈ (create_product_state_and_trans c lhs rhs k.1 k.2 mv).2.states_to) := by
  unfold create_product_state_and_trans
  cases hl : mapLookup c.product_map (k.1, k.2) with
  | some r =>
    refine ⟨rfl, ?_, r, ?_, Finset.mem_insert_self r _⟩
    · intro x hx
      exact Finset.mem_insert_of_mem hx
    · show mapLookup c.product_map k = some r
      rw [show k = (k.1, k.2) from rfl]
      exact hl
  | none =>
    refine ⟨rfl, ?_, c.product.transition_relation.length, ?_,
      Finset.mem_insert_self _ _⟩
    · intro x hx
      exact Finset.mem_insert_of_mem hx
    · show mapLookup (allocProductState lhs rhs c k.1 k.2).product_map k = some _
      rw [allocProductState_map]
      rw [show k = (k.1, k.2) from rfl]
      exact mapLookup_append_fresh _ _ _ hl

theorem createAll_post (lhs rhs : Nfa) (targets : List (Nat × Nat)) :
    ∀ (c0 : ProdCfg) (mv0 : Move),
    (createAll lhs rhs targets (c0, mv0)).2.symbol = mv0.symbol
    ∧ (∀ x ∈ mv0.states_to, x ∈ (createAll lhs rhs targets (c0, mv0)).2.states_to)
    ∧ (∀ k ∈ targets, ∃ rk,
        mapLookup (createAll lhs rhs targets (c0, mv0)).1.product_map k = some rk
        ∧ rk ∈ (createAll lhs rhs targets (c0, mv0)).2.states_to) := by
  induction targets with
  | nil =>
    intro c0 mv0
    refine ⟨rfl, fun x hx => hx, ?_⟩
    intro k hk
    exact absurd hk (List.not_mem_nil k)
  | cons k0 ks ih =>
    intro c0 mv0
    have hstep : createAll lhs rhs (k0 :: ks) (c0, mv0)
        = createAll lhs rhs ks (create_product_state_and_trans c0 lhs rhs k0.1 k0.2 mv0) :=
      rfl
    obtain ⟨hsym0, hsub0, rk0, hrk0, hmem0⟩ := create_post lhs rhs c0 k0 mv0
    have hpair : create_product_state_and_trans c0 lhs rhs k0.1 k0.2 mv0
        = ((create_product_state_and_trans c0 lhs rhs k0.1 k0.2 mv0).1,
           (create_product_state_and_trans c0 lhs rhs k0.1 k0.2 mv0).2) := rfl
    obtain ⟨ihsym, ihsub, ihall⟩ :=
      ih (create_product_state_and_trans c0 lhs rhs k0.1 k0.2 mv0).1
        (create_product_state_and_trans c0 lhs rhs k0.1 k0.2 mv0).2
    rw [hstep, hpair]
    refine ⟨by rw [ihsym, hsym0], ?_, ?_⟩
    · intro x hx
      exact ihsub x (hsub0 x hx)
    · intro k hk
      rcases List.mem_cons.mp hk with rfl | hk
      · refine ⟨rk0, ?_, ihsub rk0 hmem0⟩
        have hext := extends_createAll lhs rhs ks
          ((create_product_state_and_trans c0 lhs rhs k.1 k.2 mv0).1,
           (create_product_state_and_trans c0 lhs rhs k.1 k.2 mv0).2)
        exact hext.1 k rk0 hrk0
      · exact ihall k hk

theorem apt_adds (cfg : ProdCfg) (pair : Nat × Nat) (mv : Move) (r : Nat)
    (hr : mapLookup cfg.product_map pair = some r)
    (hlt : r < cfg.product.transition_relation.length) :
    ∀ x ∈ mv.states_to,
      hasProdTrans (add_product_transition cfg pair mv).product r mv.symbol x := by
  intro x hx
  unfold add_product_transition
  have hne : ¬ mv.states_to = ∅ := by
    intro hc
    rw [hc] at hx
    exact absurd hx (Finset.not_mem_empty x)
  rw [if_neg hne, hr]
  obtain ⟨m2, hm2, hsym, hxm⟩ :=
    addMoveToRow_adds (cfg.product.transition_relation.getD ((some r).getD 0) []) mv x hx
  refine ⟨m2, ?_, hsym, hxm⟩
  show m2 ∈ (cfg.product.transition_relation.set ((some r).getD 0) _).getD r []
  have hgd : ((some r).getD 0 : Nat) = r := rfl
  rw [hgd] at hm2 ⊢
  rw [getD_set_self _ _ _ _ hlt]
  exact hm2

theorem mapped_lt (cfg : ProdCfg)
    (h1 : ∀ e ∈ cfg.product_map, e.2 < cfg.product.transition_relation.length)
    (k : Nat × Nat) (r : Nat) (h : mapLookup cfg.product_map k = some r) :
    r < cfg.product.transition_relation.length := by
  unfold mapLookup at h
  cases hf : cfg.product_map.find? (fun e => decide (e.1 = k)) with
  | none => rw [hf] at h; exact absurd h (by simp)
  | some e =>
    rw [hf] at h
    have he : e ∈ cfg.product_map := List.mem_of_find?_eq_some hf
    have he2 : e.2 = r := by simpa using h
    rw [← he2]
    exact h1 e he

theorem eps_block_done (lhs rhs : Nfa) (cfg : ProdCfg) (pair : Nat × Nat)
    (targets : List (Nat × Nat)) (hinv : Inv4 lhs rhs cfg)
    (r : Nat) (hr : mapLookup cfg.product_map pair = some r) :
    ∀ k ∈ targets, ∃ rk,
      mapLookup (add_product_transition
          (createAll lhs rhs targets (cfg, ⟨EPSILON, ∅⟩)).1 pair
          (createAll lhs rhs targets (cfg, ⟨EPSILON, ∅⟩)).2).product_map pair = some r
      ∧ mapLookup (add_product_transition
          (createAll lhs rhs targets (cfg, ⟨EPSILON, ∅⟩)).1 pair
          (createAll lhs rhs targets (cfg, ⟨EPSILON, ∅⟩)).2).product_map k = some rk
      ∧ hasProdTrans (add_product_transition
          (createAll lhs rhs targets (cfg, ⟨EPSILON, ∅⟩)).1 pair
          (createAll lhs rhs targets (cfg, ⟨EPSILON, ∅⟩)).2).product r EPSILON rk := by
  intro k hk
  obtain ⟨hsymF, hsubF, hallF⟩ := createAll_post lhs rhs targets cfg ⟨EPSILON, ∅⟩
  obtain ⟨rk, hrk, hrkmem⟩ := hallF k hk
  have hextCA := extends_createAll lhs rhs targets (cfg, ⟨EPSILON, ∅⟩)
  have hrSt : mapLookup (createAll lhs rhs targets (cfg, ⟨EPSILON, ∅⟩)).1.product_map pair
      = some r := hextCA.1 pair r hr
  have hinvSt : Inv4 lhs rhs (createAll lhs rhs targets (cfg, ⟨EPSILON, ∅⟩)).1 :=
    inv4_createAll lhs rhs targets (cfg, ⟨EPSILON, ∅⟩) hinv
  have hlt : r < (createAll lhs rhs targets (cfg, ⟨EPSILON, ∅⟩)).1.product.transition_relation.length :=
    mapped_lt _ hinvSt.1 pair r hrSt
  have hadds := apt_adds (createAll lhs rhs targets (cfg, ⟨EPSILON, ∅⟩)).1 pair
    (createAll lhs rhs targets (cfg, ⟨EPSILON, ∅⟩)).2 r hrSt hlt rk hrkmem
  have hextApt := extends_apt (createAll lhs rhs targets (cfg, ⟨EPSILON, ∅⟩)).1 pair
    (createAll lhs rhs targets (cfg, ⟨EPSILON, ∅⟩)).2
  refine ⟨rk, hextApt.1 pair r hrSt, hextApt.1 k rk hrk, ?_⟩
  have hsymE : (createAll lhs rhs targets (cfg, ⟨EPSILON, ∅⟩)).2.symbol = EPSILON := hsymF
  rw [hsymE] at hadds
  exact hadds

theorem epsDoneL_established (lhs rhs : Nfa) (cfg : ProdCfg) (pair : Nat × Nat)
    (hinv : Inv4 lhs rhs cfg) (r : Nat)
    (hr : mapLookup cfg.product_map pair = some r) :
    EpsDoneL lhs (epsStepL lhs rhs cfg pair) pair.1 pair.2 := by
  intro lastMove hlast hsym p2 hp2
  rw [epsStepL_some lhs rhs cfg pair lastMove hlast]
  have hsymb : (lastMove.symbol == EPSILON) = true := by simp [hsym]
  rw [if_pos hsymb]
  have hk : (p2, pair.2) ∈ (nodeList lastMove.states_to).map (fun a => (a, pair.2)) :=
    List.mem_map.mpr ⟨p2, (mem_nodeList _ p2).mpr hp2, rfl⟩
  obtain ⟨rk, h1, h2, h3⟩ := eps_block_done lhs rhs cfg pair
    ((nodeList lastMove.states_to).map (fun a => (a, pair.2))) hinv r hr (p2, pair.2) hk
  exact ⟨r, rk, h1, h2, h3⟩

theorem epsDoneR_established (lhs rhs : Nfa) (cfg : ProdCfg) (pair : Nat × Nat)
    (hinv : Inv4 lhs rhs cfg) (r : Nat)
    (hr : mapLookup cfg.product_map pair = some r) :
    EpsDoneR rhs (epsStepR lhs rhs cfg pair) pair.1 pair.2 := by
  intro lastMove hlast hsym q2 hq2
  rw [epsStepR_some lhs rhs cfg pair lastMove hlast]
  have hsymb : (lastMove.symbol == EPSILON) = true := by simp [hsym]
  rw [if_pos hsymb]
  have hk : (pair.1, q2) ∈ (nodeList lastMove.states_to).map (fun b => (pair.1, b)) :=
    List.mem_map.mpr ⟨q2, (mem_nodeList _ q2).mpr hq2, rfl⟩
  obtain ⟨rk, h1, h2, h3⟩ := eps_block_done lhs rhs cfg pair
    ((nodeList lastMove.states_to).map (fun b => (pair.1, b))) hinv r hr (pair.1, q2) hk
  exact ⟨r, rk, h1, h2, h3⟩

theorem epsDone_processPair (lhs rhs : Nfa) (cfg : ProdCfg) (pair : Nat × Nat)
    (hinv : Inv4 lhs rhs cfg) (r : Nat)
    (hr : mapLookup cfg.product_map pair = some r) :
    EpsDoneL lhs (processPair lhs rhs true cfg pair) pair.1 pair.2
    ∧ EpsDoneR rhs (processPair lhs rhs true cfg pair) pair.1 pair.2 := by
  unfold processPair
  rw [if_pos rfl]
  have hinv1 : Inv4 lhs rhs (classicStep lhs rhs cfg pair) :=
    inv4_classicStep lhs rhs cfg pair hinv
  have hr1 : mapLookup (classicStep lhs rhs cfg pair).product_map pair = some r :=
    (extends_classicStep lhs rhs cfg pair).1 pair r hr
  have hL : EpsDoneL lhs (epsStepL lhs rhs (classicStep lhs rhs cfg pair) pair) pair.1 pair.2 :=
    epsDoneL_established lhs rhs _ pair hinv1 r hr1
  have hinv2 : Inv4 lhs rhs (epsStepL lhs rhs (classicStep lhs rhs cfg pair) pair) :=
    inv4_epsStepL lhs rhs _ pair hinv1
  have hr2 : mapLookup (epsStepL lhs rhs (classicStep lhs rhs cfg pair) pair).product_map pair
      = some r :=
    (extends_epsStepL lhs rhs _ pair).1 pair r hr1
  have hR : EpsDoneR rhs
      (epsStepR lhs rhs (epsStepL lhs rhs (classicStep lhs rhs cfg pair) pair) pair) pair.1
      pair.2 :=
    epsDoneR_established lhs rhs _ pair hinv2 r hr2
  exact ⟨epsDoneL_mono (extends_epsStepR lhs rhs _ pair) hL, hR⟩

theorem epsInv_step (lhs rhs : Nfa) (cfg : ProdCfg) (pair : Nat × Nat)
    (rest : List (Nat × Nat)) (hpend : cfg.pairs_to_process = pair :: rest)
    (hinv4 : Inv4 lhs rhs cfg) (hpm : PendingMapped cfg) (heps : EpsInv lhs rhs cfg) :
    EpsInv lhs rhs (processPair lhs rhs true ⟨cfg.product, cfg.product_map, rest⟩ pair) := by
  intro e he
  have hadds := stepAdds_processPair lhs rhs true ⟨cfg.product, cfg.product_map, rest⟩ pair
  have hext := extends_processPair lhs rhs true ⟨cfg.product, cfg.product_map, rest⟩ pair
  rcases hadds.1 e he with heOld | hePend
  · rcases heps e heOld with hpending | hdone
    · rw [hpend] at hpending
      rcases List.mem_cons.mp hpending with heq | hrest
      · right
        obtain ⟨r, hr⟩ := hpm pair (by rw [hpend]; exact List.mem_cons_self pair rest)
        have hdonePair := epsDone_processPair lhs rhs ⟨cfg.product, cfg.product_map, rest⟩
          pair hinv4 r hr
        rw [heq]
        exact hdonePair
      · left
        exact hadds.2 e.1 hrest
    · right
      exact ⟨epsDoneL_mono hext hdone.1, epsDoneR_mono hext hdone.2⟩
  · left
    exact hePend

theorem epsInv_loop (lhs rhs : Nfa) (fuel : Nat) :
    ∀ cfg : ProdCfg, Inv4 lhs rhs cfg → PendingMapped cfg → EpsInv lhs rhs cfg →
      EpsInv lhs rhs (intersectionLoop lhs rhs true fuel cfg) := by
  induction fuel with
  | zero => intro cfg _ _ h; exact h
  | succ n ih =>
    intro cfg hinv4 hpm heps
    unfold intersectionLoop
    cases hpend : cfg.pairs_to_process with
    | nil => exact heps
    | cons pair rest =>
      apply ih
      · exact inv4_processPair lhs rhs true ⟨cfg.product, cfg.product_map, rest⟩ pair hinv4
      · exact pm_processPair lhs rhs true ⟨cfg.product, cfg.product_map, rest⟩ pair
          (pm_pop cfg pair rest hpend hpm)
      · exact epsInv_step lhs rhs cfg pair rest hpend hinv4 hpm heps

theorem stepAdds_initPair (lhs rhs : Nfa) (cfg : ProdCfg) (p q : Nat) :
    StepAdds cfg (initPair lhs rhs cfg p q) :=
  stepAdds_alloc lhs rhs cfg p q

theorem stepAdds_init (lhs rhs : Nfa) :
    StepAdds ⟨⟨[], [], []⟩, [], []⟩ (intersectionInit lhs rhs) := by
  unfold intersectionInit
  exact stepAdds_foldl _
    (fun c p => stepAdds_foldl _ (fun c2 q => stepAdds_initPair lhs rhs c2 p q)
      rhs.initial_states c) lhs.initial_states _

theorem epsInv_init (lhs rhs : Nfa) : EpsInv lhs rhs (intersectionInit lhs rhs) := by
  intro e he
  rcases (stepAdds_init lhs rhs).1 e he with he2 | he2
  · exact absurd he2 (List.not_mem_nil e)
  · exact Or.inl he2

/-- C5: when `intersection` is called with preserve_epsilon and its
worklist empties within the given fuel, then for every mapped (hence
processed) pair (p, q) the product contains an epsilon transition from
the state mapped from (p, q) to the one mapped from (p2, q) for every
target p2 of a trailing epsilon entry of lhs at p, and symmetrically for
rhs. -/
theorem claim5_epsilon_preservation (lhs rhs : Nfa) (fuel : Nat) (p q r : Nat)
    (hdone : (intersection fuel lhs rhs true).pairs_to_process = [])
    (hmem : mapLookup (intersection fuel lhs rhs true).product_map (p, q) = some r) :
    EpsDoneL lhs (intersection fuel lhs rhs true) p q
    ∧ EpsDoneR rhs (intersection fuel lhs rhs true) p q := by
  have heps : EpsInv lhs rhs (intersection fuel lhs rhs true) :=
    epsInv_loop lhs rhs fuel (intersectionInit lhs rhs) (inv4_init lhs rhs)
      (pm_init lhs rhs) (epsInv_init lhs rhs)
  unfold mapLookup at hmem
  cases hf : (intersection fuel lhs rhs true).product_map.find?
      (fun e => decide (e.1 = (p, q))) with
  | none => rw [hf] at hmem; exact absurd hmem (by simp)
  | some e =>
    have hemem : e ∈ (intersection fuel lhs rhs true).product_map :=
      List.mem_of_find?_eq_some hf
    have hkey : e.1 = (p, q) := by
      have := List.find?_some hf
      simpa using this
    rcases heps e hemem with hpend | hdone2
    · rw [hdone] at hpend
      exact absurd hpend (List.not_mem_nil e.1)
    · rw [hkey] at hdone2
      exact hdone2

/-- C5 witness: the scenario S-3 product (lhs 0 —ε→ 1 with rhs a single
initial-final state) processed to completion with fuel 5, at the initial
pair (0, 0). -/
theorem claim5_witness :
    EpsDoneL exNfaEps (intersection 5 exNfaEps exNfaOne true) 0 0
    ∧ EpsDoneR exNfaOne (intersection 5 exNfaEps exNfaOne true) 0 0 :=
  claim5_epsilon_preservation exNfaEps exNfaOne 5 0 0 0 (by decide) (by decide)

end Mata
